import Mathlib

/-!
# videoupload: a verification development of `upload.go`

The program reads rows of a spreadsheet, uploads the video file each row names
and writes the resulting address (or a failure text) back into column L of the
row.  Three worker goroutines share a `jobs` and a `results` channel.

Modelling conventions.

* A Go `string` is a Lean `String`; a Go `int` is an `Int` kept inside the
  64-bit signed range, with `wrap64` applied where the code increments.
* A Go `error` is an `Err` carrying the text `Error()` returns; `nil` is
  `none`.
* `log.Fatal`/`log.Fatalf` and run-time panics end the process.  Every
  function that may do so returns an `Eff α`: the list of `Event`s it
  performed, and either its value or the message of the fatal exit.
* The remote services, the file system and the terminal are the fields of a
  `World`: what each external call answers.
* Goroutines and channels are a step function `step` on a scheduler state
  `Sched`; an interleaving is a list of `Actor`s and `run` executes it.  A
  channel is its buffer, a send blocked when the buffer holds 1000 values, a
  receive blocked when it is empty.  `singleUpload` touches nothing the
  goroutines share, so a worker runs it in one step.
-/

namespace VideoUpload

/-! ## Data model -/

/-- A Go `error` value that is not `nil`; `text` is what `Error()` returns. -/
structure Err where
  text : String
deriving DecidableEq, Repr

/-- A spreadsheet cell as the Sheets client decodes it into `interface{}`:
a string, a number (kept with its `%v` rendering), a boolean or `nil`. -/
inductive Cell where
  | str (s : String)
  | number (shown : String)
  | bool (b : Bool)
  | null
deriving DecidableEq, Repr

/-- The struct `VideoData` of `upload.go`. -/
structure VideoData where
  Filename : String
  Title : String
  Description : String
  Category : String
  Keywords : String
deriving DecidableEq, Repr

/-- The `youtube.VideoSnippet` fields `upload` fills; `Tags = none` is the
unset (nil) slice. -/
structure VideoSnippet where
  Title : String
  Description : String
  CategoryId : String
  Tags : Option (List String)
deriving DecidableEq, Repr

/-- The `youtube.Video` value `upload` builds: snippet and privacy status. -/
structure Video where
  Snippet : VideoSnippet
  PrivacyStatus : String
deriving DecidableEq, Repr

/-- An open file handle as returned by `os.Open`. -/
structure File where
  name : String
deriving DecidableEq, Repr

/-- What the program does to the outside, in order. -/
inductive Event where
  | usage
  | authPrompt
  | tokenExchange (code : String)
  | sheetsGet (readRange : String)
  | sheetsUpdate (range : String) (values : List (List Cell)) (inputOption : String)
  | videosInsert (part : String) (video : Video) (media : File)
  | uploadCall (vd : VideoData)
  | setVideoUrlCall (line : Int) (url : String)
  | print (s : String)
deriving DecidableEq, Repr

/-- A computation of the program: the events performed, and either the value
returned or the message of the fatal exit (`log.Fatal`, panic) that ended the
process. -/
structure Eff (α : Type) where
  events : List Event
  result : Except String α

/-- Returning a value without doing anything. -/
def Eff.pure {α : Type} (a : α) : Eff α := ⟨[], .ok a⟩

/-- Sequencing: the second computation runs only when the first returned. -/
def Eff.bind {α β : Type} (x : Eff α) (f : α → Eff β) : Eff β :=
  match x.result with
  | .error msg => ⟨x.events, .error msg⟩
  | .ok a => ⟨x.events ++ (f a).events, (f a).result⟩

instance : Monad Eff where
  pure := Eff.pure
  bind := Eff.bind

/-- Performing one event. -/
def emit (e : Event) : Eff Unit := ⟨[e], .ok ()⟩

/-- The call `log.Fatal`/`log.Fatalf` (or a panic): the process ends with `msg`. -/
def fatal {α : Type} (msg : String) : Eff α := ⟨[], .error msg⟩

/-- The environment of a run: the answer of every external call. -/
structure World where
  /-- Reading the pasted code with `fmt.Scan`. -/
  scanCode : Except Err String
  /-- The token exchange `conf.Exchange(ctx, code)`; `none` is success. -/
  exchange : String → Option Err
  /-- The call `youtube.New(client)`; `none` is success. -/
  youtubeNew : Option Err
  /-- The call `sheets.New(client)`; `none` is success. -/
  sheetsNew : Option Err
  /-- The call `Spreadsheets.Values.Get(SPREADSHEET_ID, readRange).Do()`. -/
  valuesGet : String → Except Err (List (List Cell))
  /-- The call `Spreadsheets.Values.Update(...).ValueInputOption(opt).Do()`. -/
  valuesUpdate : String → List (List Cell) → String → Option Err
  /-- The call `os.Open(path)`. -/
  osOpen : String → Except Err File
  /-- The call `f.Stat()` followed by `Size()`. -/
  statSize : File → Except Err Int
  /-- The call `Videos.Insert(part, video).Media(file).Do()`, giving `response.Id`. -/
  videosInsert : String → Video → File → Except Err String

/-! ## Library functions the program calls -/

/-- The verb `%s` of `fmt.Sprintf` applied to an `interface{}` cell: a string
is copied, any other value is shown in the bad-verb form `%!s(type=value)`. -/
def fmtS : Cell → String
  | .str s => s
  | .number shown => "%!s(float64=" ++ shown ++ ")"
  | .bool b => "%!s(bool=" ++ (if b then "true" else "false") ++ ")"
  | .null => "%!s(<nil>)"

/-- The verb `%d` of `fmt.Sprintf` applied to an `int`. -/
def fmtD (n : Int) : String := toString n

/-- The inner loop of the `..` case of `path.Clean`: starting from index `w`,
step back while `w > dotdot` and `out[w]` is not a slash. -/
def backLoop (out : List Char) (dotdot : Nat) : Nat → Nat
  | 0 => 0
  | w + 1 =>
    if w + 1 > dotdot ∧ out.get? (w + 1) ≠ some '/' then backLoop out dotdot w else w + 1

/-- The main loop of `path.Clean` on the unread part of the path; `out` is the
buffer written so far, `dotdot` the index where `..` must stop.  Every turn
reads at least one character, so the length of the path is enough fuel. -/
def cleanLoop (rooted : Bool) : Nat → List Char → List Char → Nat → List Char
  | 0, _, out, _ => out
  | _ + 1, [], out, _ => out
  | fuel + 1, c :: rest, out, dotdot =>
    if c = '/' then
      cleanLoop rooted fuel rest out dotdot
    else if c = '.' ∧ (rest = [] ∨ rest.head? = some '/') then
      cleanLoop rooted fuel rest out dotdot
    else if c = '.' ∧ rest.head? = some '.' ∧
        (rest.tail = [] ∨ rest.tail.head? = some '/') then
      if out.length > dotdot then
        cleanLoop rooted fuel rest.tail
          (out.take (backLoop out dotdot (out.length - 1))) dotdot
      else if !rooted then
        let out1 := if out.length > 0 then out ++ ['/'] else out
        let out2 := out1 ++ ['.', '.']
        cleanLoop rooted fuel rest.tail out2 out2.length
      else
        cleanLoop rooted fuel rest.tail out dotdot
    else
      let out1 :=
        if (rooted ∧ out.length ≠ 1) ∨ (!rooted ∧ out.length ≠ 0) then out ++ ['/'] else out
      cleanLoop rooted fuel ((c :: rest).dropWhile (fun x => x ≠ '/'))
        (out1 ++ (c :: rest).takeWhile (fun x => x ≠ '/')) dotdot

/-- The function `path.Clean` of the Go library. -/
def pathClean (p : String) : String :=
  match p.data with
  | [] => "."
  | c :: rest =>
    let rooted := c = '/'
    let out :=
      if rooted then cleanLoop true (rest.length + 1) rest ['/'] 1
      else cleanLoop false (rest.length + 2) (c :: rest) [] 0
    if out.length = 0 then "." else String.mk out

/-- The function `path.Join` of the Go library for two elements: the
non-empty elements joined by a slash, then cleaned; all empty gives `""`. -/
def pathJoin (a b : String) : String :=
  if a.length + b.length = 0 then ""
  else if a = "" then pathClean b
  else pathClean (a ++ "/" ++ b)

/-- The function `strings.Trim`: `s` without the leading and trailing
characters contained in `cutset`; an empty `s` or an empty `cutset` returns
`s` unchanged. -/
def stringsTrim (s cutset : String) : String :=
  if s = "" ∨ cutset = "" then s
  else
    String.mk (((s.data.dropWhile (fun c => c ∈ cutset.data)).reverse.dropWhile
      (fun c => c ∈ cutset.data)).reverse)

/-- Splitting at every comma, the current piece accumulated in reverse. -/
def splitCommaAux : List Char → List Char → List String
  | [], acc => [String.mk acc.reverse]
  | c :: cs, acc =>
    if c = ',' then String.mk acc.reverse :: splitCommaAux cs []
    else splitCommaAux cs (c :: acc)

/-- The call `strings.Split(s, ",")`: the pieces of `s` between commas, in
order; a string without comma is the single piece. -/
def stringsSplitComma (s : String) : List String := splitCommaAux s.data []

/-! ## The functions of `upload.go` -/

/-- The type assertion `x.(string)`: a panic (`none`) unless the cell holds a
string. -/
def assertString : Cell → Option String
  | .str s => some s
  | _ => none

/-- The function `NewVideoData`; `none` is a run-time panic (index out of range or
failed type assertion).  The fields are evaluated in the order of the struct
literal: `row[9].(string)`, `row[2].(string)`, then the two `Sprintf` calls. -/
def NewVideoData (row : List Cell) (dir : String) : Option VideoData :=
  match row.get? 9 with
  | none => none
  | some c9 =>
    match assertString c9 with
    | none => none
    | some s9 =>
      match row.get? 2 with
      | none => none
      | some c2 =>
        match assertString c2 with
        | none => none
        | some s2 =>
          match row.get? 6, row.get? 7, row.get? 8, row.get? 1, row.get? 3 with
          | some c6, some c7, some c8, some c1, some c3 =>
            some
              { Filename := pathJoin dir s9
                Keywords := s2
                Category := "22"
                Description := fmtS c6 ++ ": " ++ fmtS c7 ++ "-" ++ fmtS c8
                Title := fmtS c1 ++ " " ++ fmtS c3 }
          | _, _, _, _, _ => none

/-- The function `getClient`: print the authorization address, read the code,
exchange it for a token.  The client it returns is the handle on `World`. -/
def getClient (w : World) : Eff Unit := do
  emit .authPrompt
  match w.scanCode with
  | .error err => fatal err.text
  | .ok code =>
    emit (.tokenExchange code)
    match w.exchange code with
    | some err => fatal err.text
    | none => pure ()

/-- The `youtube.Video` request of `upload` (the local variable `upload`):
title, description and category copied, status private, and the tags set only
when `strings.Trim(vd.Keywords, "")` is not the empty string. -/
def uploadVideo (vd : VideoData) : Video :=
  let video : Video :=
    { Snippet :=
        { Title := vd.Title
          Description := vd.Description
          CategoryId := vd.Category
          Tags := none }
      PrivacyStatus := "private" }
  if stringsTrim vd.Keywords "" ≠ "" then
    { video with Snippet := { video.Snippet with Tags := some (stringsSplitComma vd.Keywords) } }
  else video

/-- The function `upload`: returns `response.Id`, or ends the process when the
client cannot be created, the file cannot be opened or the remote call fails. -/
def upload (w : World) (vd : VideoData) : Eff String := do
  emit (.uploadCall vd)
  match w.youtubeNew with
  | some err => fatal ("Error creating YouTube client: " ++ err.text)
  | none =>
    let video := uploadVideo vd
    match w.osOpen vd.Filename with
    | .error err => fatal ("Error opening " ++ vd.Filename ++ ": " ++ err.text)
    | .ok file =>
      emit (.videosInsert "snippet,status" video file)
      match w.videosInsert "snippet,status" video file with
      | .error err => fatal ("Error making YouTube API call: " ++ err.text)
      | .ok id => pure id

/-- The function `getRow`: read `Sheet1!A<line>:J<line>`, require exactly one
row and build its `VideoData`. -/
def getRow (w : World) (dir : String) (line : Int) : Eff VideoData := do
  match w.sheetsNew with
  | some err => fatal ("Unable to retrieve Sheets client: " ++ err.text)
  | none =>
    let readRange := "Sheet1!A" ++ fmtD line ++ ":J" ++ fmtD line
    emit (.sheetsGet readRange)
    match w.valuesGet readRange with
    | .error err => fatal ("Unable to retrieve data from sheet: " ++ err.text)
    | .ok values =>
      match values with
      | [row] =>
        match NewVideoData row dir with
        | none => fatal "panic in NewVideoData"
        | some vd => pure vd
      | _ => fatal "1 row expected..."

/-- The function `setVideoUrl`: write the one value `url` into
`Sheet1!L<line>:L<line>` with input option `RAW`. -/
def setVideoUrl (w : World) (line : Int) (url : String) : Eff Unit := do
  emit (.setVideoUrlCall line url)
  match w.sheetsNew with
  | some err => fatal ("Unable to retrieve Sheets client: " ++ err.text)
  | none =>
    let values := [[Cell.str url]]
    let range := "Sheet1!L" ++ fmtD line ++ ":L" ++ fmtD line
    emit (.sheetsUpdate range values "RAW")
    match w.valuesUpdate range values "RAW" with
    | some err => fatal ("Unable to set data in spreadsheet: " ++ err.text)
    | none => pure ()

/-- The function `isFileSizeOk`: `(true, nil)` when the file opens, stats and is
larger than `1024*1024` bytes; `(false, err)` when open or stat fails;
`(false, nil)` otherwise. -/
def isFileSizeOk (w : World) (path : String) : Bool × Option Err :=
  match w.osOpen path with
  | .error err => (false, some err)
  | .ok f =>
    match w.statSize f with
    | .error err => (false, some err)
    | .ok size => if size > 1024 * 1024 then (true, none) else (false, none)

/-- The function `singleUpload`: resolve the row, gate on the file size, upload,
write the address or the failure text back, report. -/
def singleUpload (w : World) (dir : String) (line : Int) : Eff Unit := do
  let vd ← getRow w dir line
  let videoUrl ←
    match isFileSizeOk w vd.Filename with
    | (false, some err) => (pure err.text : Eff String)
    | (false, none) => pure "file too small, likely ffmpeg error"
    | (true, _) => do
      let videoId ← upload w vd
      pure ("https://youtu.be/" ++ videoId)
  setVideoUrl w line videoUrl
  emit (.print ("done with " ++ fmtD line ++ "\n"))

/-- The events of the last statement of `singleUpload`, the report
`done with <line>`, reached only when `setVideoUrl` returned with `r`. -/
def doneReport (r : Except String Unit) (line : Int) : List Event :=
  match r with
  | .ok _ => [.print ("done with " ++ fmtD line ++ "\n")]
  | .error _ => []

/-- The lines of the calls to `setVideoUrl` among the events, in order. -/
def writeLines : List Event → List Int
  | [] => []
  | .setVideoUrlCall line _ :: es => line :: writeLines es
  | _ :: es => writeLines es

/-- The calls to `setVideoUrl` among the events, line and value, in order. -/
def writes : List Event → List (Int × String)
  | [] => []
  | .setVideoUrlCall line url :: es => (line, url) :: writes es
  | _ :: es => writes es

/-- The calls to `upload` among the events, in order. -/
def uploadCalls : List Event → List VideoData
  | [] => []
  | .uploadCall vd :: es => vd :: uploadCalls es
  | _ :: es => uploadCalls es

/-! ## The scheduler of `main` -/

/-- The three flags of the command line. -/
structure Args where
  dir : String
  fromLine : Int
  toLine : Int
deriving DecidableEq, Repr

/-- The smallest 64-bit `int`. -/
def minInt : Int := -(2 ^ 63)

/-- The largest 64-bit `int`. -/
def maxInt : Int := 2 ^ 63 - 1

/-- Reduction of an integer into the 64-bit signed range, as `i++` does. -/
def wrap64 (x : Int) : Int := (x + 2 ^ 63) % 2 ^ 64 - 2 ^ 63

/-- The capacity of both channels: `make(chan int, 1000)`. -/
def chanCap : Nat := 1000

/-- The number of `go uploadWorker(...)` statements `main` executes. -/
def numWorkers : Nat := 3

/-- Where a worker goroutine stands: at the receive of `range jobs`, holding a
job before `singleUpload`, at the send `results <- j`, or past its loop. -/
inductive Worker where
  | idle
  | busy (j : Int)
  | sending (j : Int)
  | exited
deriving DecidableEq, Repr

/-- Where `main` stands: in the first loop with counter `i`, in the second
loop with counter `i`, or returned. -/
inductive MainPc where
  | produce (i : Int)
  | collect (i : Int)
  | done
deriving DecidableEq, Repr

/-- The state of a run after the workers were started.  `recvd` records the
values `main` has read from `results` (the program discards them), `log` the
events of the workers, `exit` the message of a fatal exit. -/
structure Sched where
  pc : MainPc
  jobs : List Int
  jobsClosed : Bool
  results : List Int
  workers : List Worker
  recvd : List Int
  log : List Event
  exit : Option String
deriving DecidableEq, Repr

/-- A goroutine: `main` or the worker number `k`. -/
inductive Actor where
  | main
  | worker (k : Nat)
deriving DecidableEq, Repr

/-- The state when `main` enters its first loop: both channels empty and open,
every worker at its receive. -/
def initSched (args : Args) : Sched :=
  { pc := .produce args.fromLine
    jobs := []
    jobsClosed := false
    results := []
    workers := List.replicate numWorkers .idle
    recvd := []
    log := []
    exit := none }

/-- The function `main` up to its first loop: check the flags, authorize, make
the channels and start the workers. -/
def mainStart (w : World) (args : Args) : Eff Sched := do
  if args.dir = "" ∨ args.fromLine = 0 ∨ args.toLine = 0 then
    emit .usage
    fatal "Please provide all arguments!"
  else
    getClient w
    pure (initSched args)

/-- One step of `main`; `none` when it is blocked on a channel.
In the first loop: `jobs <- i` and `i++` while `i <= to`, then `close(jobs)`
and the start of the second loop.  In the second loop: `<- results` and `i++`
while `i <= to`, then return. -/
def stepMain (args : Args) (s : Sched) : Option Sched :=
  match s.pc with
  | .produce i =>
    if i ≤ args.toLine then
      if s.jobs.length < chanCap then
        some { s with jobs := s.jobs ++ [i], pc := .produce (wrap64 (i + 1)) }
      else none
    else some { s with jobsClosed := true, pc := .collect args.fromLine }
  | .collect i =>
    if i ≤ args.toLine then
      match s.results with
      | [] => none
      | r :: rs => some { s with results := rs, recvd := s.recvd ++ [r], pc := .collect (wrap64 (i + 1)) }
    else some { s with pc := .done }
  | .done => none

/-- One step of the goroutine `uploadWorker` number `k`; `none` when it is
blocked or gone.  At the receive: take the head of `jobs`, or leave the loop
when `jobs` is closed and empty.  Holding `j`: run `singleUpload`, a fatal
exit there ending the process.  Then send `j` on `results`. -/
def stepWorker (w : World) (args : Args) (k : Nat) (s : Sched) : Option Sched :=
  match s.workers.get? k with
  | none => none
  | some .idle =>
    match s.jobs with
    | j :: js => some { s with jobs := js, workers := s.workers.set k (.busy j) }
    | [] => if s.jobsClosed then some { s with workers := s.workers.set k .exited } else none
  | some (.busy j) =>
    match (singleUpload w args.dir j).result with
    | .ok _ =>
      some { s with log := s.log ++ (singleUpload w args.dir j).events
                    workers := s.workers.set k (.sending j) }
    | .error msg =>
      some { s with log := s.log ++ (singleUpload w args.dir j).events, exit := some msg }
  | some (.sending j) =>
    if s.results.length < chanCap then
      some { s with results := s.results ++ [j], workers := s.workers.set k .idle }
    else none
  | some .exited => none

/-- One step of the run by the chosen goroutine.  Nothing moves once the
process has ended, by a fatal exit or by the return of `main`. -/
def step (w : World) (args : Args) (a : Actor) (s : Sched) : Option Sched :=
  if s.exit.isSome ∨ s.pc = .done then none
  else
    match a with
    | .main => stepMain args s
    | .worker k => stepWorker w args k s

/-- Executing an interleaving; `none` when it asks a blocked goroutine to move. -/
def run (w : World) (args : Args) : List Actor → Sched → Option Sched
  | [], s => some s
  | a :: rest, s =>
    match step w args a s with
    | none => none
    | some s1 => run w args rest s1

/-- The run has ended: `main` returned or the process exited fatally. -/
def Sched.ended (s : Sched) : Prop := s.pc = .done ∨ s.exit.isSome

instance (s : Sched) : Decidable s.ended := by
  unfold Sched.ended; infer_instance

/-- The row indices from `a` up to but not including `b`, ascending. -/
def rowsFrom (a b : Int) : List Int :=
  (List.range (b - a).toNat).map (fun (k : Nat) => a + (k : Int))

/-- A world in which every row resolves and every file fails to open, so that
each row gets the error text written back and nothing is fatal. -/
def quietWorld : World where
  scanCode := .ok "code"
  exchange := fun _ => none
  youtubeNew := none
  sheetsNew := none
  valuesGet := fun _ =>
    .ok [[.str "40", .str "1997.06.07", .str "beac", .str "BEAC 97", .str "0:01:09",
          .str "4:55:08", .str "apu/Kicsi_40.mpg", .str "0:01.09", .str "4:55.08",
          .str "out_2.mpg"]]
  valuesUpdate := fun _ _ _ => none
  osOpen := fun _ => .error ⟨"no such file or directory"⟩
  statSize := fun _ => .ok 0
  videosInsert := fun _ _ _ => .ok "id"

/-- A world in which every row resolves and every file is large enough, and
the remote insert call fails. -/
def insertFailsWorld : World :=
  { quietWorld with
    osOpen := fun p => .ok ⟨p⟩
    statSize := fun _ => .ok 5000000
    videosInsert := fun _ _ _ => .error ⟨"quotaExceeded"⟩ }

/-- A world in which every row resolves and every file holds ten bytes. -/
def smallFileWorld : World :=
  { quietWorld with
    osOpen := fun p => .ok ⟨p⟩
    statSize := fun _ => .ok 10 }

/-- A world in which every row resolves, every file is large enough and the
remote insert call answers the identifier `abc123`. -/
def happyWorld : World :=
  { quietWorld with
    osOpen := fun p => .ok ⟨p⟩
    statSize := fun _ => .ok 5000000
    videosInsert := fun _ _ _ => .ok "abc123" }

/-- The row of the comment in `NewVideoData`. -/
def sampleRow : List String :=
  ["40", "1997.06.07", "beac", "BEAC 97", "0:01:09", "4:55:08", "apu/Kicsi_40.mpg",
   "0:01.09", "4:55.08", "out_2.mpg"]

/-- The sample row with the date cell decoded as a number. -/
def numericDateRow : List Cell :=
  [.str "40", .number "1997", .str "beac", .str "BEAC 97", .str "0:01:09", .str "4:55:08",
   .str "apu/Kicsi_40.mpg", .str "0:01.09", .str "4:55.08", .str "out_2.mpg"]

/-- The interleaving in which worker `k` alone moves through `n` whole turns of
its loop: receive, `singleUpload`, send. -/
def workerTurns (k : Nat) : Nat → List Actor
  | 0 => []
  | n + 1 => .worker k :: .worker k :: .worker k :: workerTurns k n

/-- The interleaving that leads the run on the rows 1 to 2004 into a deadlock:
`main` fills `jobs`, worker 0 moves 1000 rows into `results`, `main` fills
`jobs` again, each worker takes one row up to its send, `main` tops up `jobs`. -/
def deadlockSchedule : List Actor :=
  List.replicate 1000 .main ++ (workerTurns 0 1000 ++ (List.replicate 1000 .main ++
    ([.worker 0, .worker 0, .worker 1, .worker 1, .worker 2, .worker 2] ++
      List.replicate 3 .main)))

/-! ## Invariants of the scheduler -/

/-- The job a worker has received and not yet run through `singleUpload`. -/
def Worker.holding : Worker → Multiset Int
  | .busy j => {j}
  | _ => 0

/-- The job a worker has run through `singleUpload` and not yet reported. -/
def Worker.finished : Worker → Multiset Int
  | .sending j => {j}
  | _ => 0

/-- The steps a worker still has before it is back at its receive without a
job, plus one for leaving its loop. -/
def Worker.weight : Worker → Nat
  | .idle => 1
  | .busy _ => 5
  | .sending _ => 4
  | .exited => 0

/-- The jobs held by the workers before `singleUpload`. -/
def holdingJobs (ws : List Worker) : Multiset Int := (ws.map Worker.holding).sum

/-- The jobs the workers are about to report on `results`. -/
def finishedJobs (ws : List Worker) : Multiset Int := (ws.map Worker.finished).sum

/-- The bound of the rows `main` has put on `jobs`: its counter in the first
loop, `to + 1` afterwards. -/
def enqueuedUpTo (args : Args) : MainPc → Int
  | .produce i => i
  | _ => args.toLine + 1

/-- The invariant of a run whose `to` is below the largest `int`.
Every row put on `jobs` is in exactly one place (the queue, a worker, the
`results` channel, or read by `main`); the calls to `setVideoUrl` made so far
are those of the rows past `singleUpload`; a worker leaves its loop only once
`jobs` is closed and empty. -/
structure Inv (args : Args) (s : Sched) : Prop where
  workers_length : s.workers.length = numWorkers
  conservation :
    (s.jobs : Multiset Int) + holdingJobs s.workers + finishedJobs s.workers + s.results + s.recvd =
      rowsFrom args.fromLine (enqueuedUpTo args s.pc)
  written :
    s.exit = none → (writeLines s.log : Multiset Int) = finishedJobs s.workers + s.results + s.recvd
  produce : ∀ i, s.pc = .produce i →
    args.fromLine ≤ i ∧ (i ≤ args.toLine + 1 ∨ i = args.fromLine) ∧ s.jobsClosed = false ∧
      s.recvd = []
  collect : ∀ i, s.pc = .collect i →
    args.fromLine ≤ i ∧ (i ≤ args.toLine + 1 ∨ i = args.fromLine) ∧ s.jobsClosed = true ∧
      (s.recvd.length : Int) = i - args.fromLine
  done : s.pc = .done →
    s.exit = none ∧ s.jobsClosed = true ∧
      s.recvd.length = (args.toLine + 1 - args.fromLine).toNat
  exited : Worker.exited ∈ s.workers → s.jobsClosed = true ∧ s.jobs = []

/-- An upper bound on the number of steps a run can still take. -/
def remainingWork (args : Args) (s : Sched) : Nat :=
  if s.exit.isSome then 0
  else
    (match s.pc with
      | .produce i => 2 + 6 * (args.toLine + 1 - i).toNat
      | .collect _ => 1
      | .done => 0) +
    5 * s.jobs.length + 2 * s.results.length + (s.workers.map Worker.weight).sum

/-! ## Sequencing lemmas -/

@[simp] theorem bind_eq {α β : Type} (x : Eff α) (f : α → Eff β) : x >>= f = Eff.bind x f := rfl

@[simp] theorem pure_eq {α : Type} (a : α) : (pure a : Eff α) = Eff.pure a := rfl

theorem writes_append (xs ys : List Event) : writes (xs ++ ys) = writes xs ++ writes ys := by
  induction xs with
  | nil => rfl
  | cons e es ih => cases e <;> simp [writes, ih]

theorem writeLines_append (xs ys : List Event) :
    writeLines (xs ++ ys) = writeLines xs ++ writeLines ys := by
  induction xs with
  | nil => rfl
  | cons e es ih => cases e <;> simp [writeLines, ih]

theorem uploadCalls_append (xs ys : List Event) :
    uploadCalls (xs ++ ys) = uploadCalls xs ++ uploadCalls ys := by
  induction xs with
  | nil => rfl
  | cons e es ih => cases e <;> simp [uploadCalls, ih]

theorem writeLines_eq_map (xs : List Event) : writeLines xs = (writes xs).map Prod.fst := by
  induction xs with
  | nil => rfl
  | cons e es ih => cases e <;> simp [writes, writeLines, ih]

theorem doneReport_writes (r : Except String Unit) (line : Int) :
    writes (doneReport r line) = [] ∧ uploadCalls (doneReport r line) = [] := by
  cases r <;> simp [doneReport, writes, uploadCalls]

theorem getRow_events (w : World) (dir : String) (line : Int) :
    (getRow w dir line).events = [] ∨
    (getRow w dir line).events = [.sheetsGet ("Sheet1!A" ++ fmtD line ++ ":J" ++ fmtD line)] := by
  unfold getRow
  cases w.sheetsNew with
  | some err => left; rfl
  | none =>
    right
    simp only [bind_eq, pure_eq, Eff.bind, emit, fatal, Eff.pure]
    cases w.valuesGet ("Sheet1!A" ++ fmtD line ++ ":J" ++ fmtD line) with
    | error err => rfl
    | ok values =>
      match values with
      | [] => rfl
      | [row] => cases h : NewVideoData row dir <;> simp [h]
      | _ :: _ :: _ => rfl

theorem getRow_writes (w : World) (dir : String) (line : Int) :
    writes (getRow w dir line).events = [] ∧ uploadCalls (getRow w dir line).events = [] := by
  rcases getRow_events w dir line with h | h <;> simp [h, writes, uploadCalls]

theorem upload_writes (w : World) (vd : VideoData) : writes (upload w vd).events = [] := by
  unfold upload
  simp only [bind_eq, pure_eq, Eff.bind, emit, fatal, Eff.pure]
  cases w.youtubeNew with
  | some err => simp [writes]
  | none =>
    cases w.osOpen vd.Filename with
    | error err => simp [writes]
    | ok file =>
      cases h : w.videosInsert "snippet,status" (uploadVideo vd) file <;> simp [writes, h]

theorem setVideoUrl_writes (w : World) (line : Int) (url : String) :
    writes (setVideoUrl w line url).events = [(line, url)] ∧
    uploadCalls (setVideoUrl w line url).events = [] := by
  unfold setVideoUrl
  simp only [bind_eq, pure_eq, Eff.bind, emit, fatal, Eff.pure]
  cases w.sheetsNew with
  | some err => simp [writes, uploadCalls]
  | none =>
    cases h : w.valuesUpdate ("Sheet1!L" ++ fmtD line ++ ":L" ++ fmtD line) [[Cell.str url]] "RAW" <;>
      simp [writes, uploadCalls, h]
/-- The run of `singleUpload` when the size gate passes and `upload` returns. -/
theorem singleUpload_gate_ok (w : World) (dir : String) (line : Int) (vd : VideoData) (id : String)
    (hrow : (getRow w dir line).result = .ok vd)
    (hgate : (isFileSizeOk w vd.Filename).1 = true)
    (hup : (upload w vd).result = .ok id) :
    (singleUpload w dir line).events =
      (getRow w dir line).events ++ ((upload w vd).events ++
        ((setVideoUrl w line ("https://youtu.be/" ++ id)).events ++
          doneReport (setVideoUrl w line ("https://youtu.be/" ++ id)).result line)) ∧
    (singleUpload w dir line).result = (setVideoUrl w line ("https://youtu.be/" ++ id)).result := by
  unfold singleUpload
  simp only [bind_eq, pure_eq, Eff.bind, hrow]
  rcases hg : isFileSizeOk w vd.Filename with ⟨b, e⟩
  rw [hg] at hgate
  simp only at hgate
  subst hgate
  simp only [Eff.bind, hup, Eff.pure, emit, List.nil_append, List.append_nil]
  cases hs : (setVideoUrl w line ("https://youtu.be/" ++ id)).result <;> simp [doneReport]

theorem singleUpload_gate_fail (w : World) (dir : String) (line : Int) (vd : VideoData)
    (hrow : (getRow w dir line).result = .ok vd)
    (hgate : (isFileSizeOk w vd.Filename).1 = false) :
    (singleUpload w dir line).events =
      (getRow w dir line).events ++
        ((setVideoUrl w line (match (isFileSizeOk w vd.Filename).2 with
            | some err => err.text
            | none => "file too small, likely ffmpeg error")).events ++
          doneReport (setVideoUrl w line (match (isFileSizeOk w vd.Filename).2 with
            | some err => err.text
            | none => "file too small, likely ffmpeg error")).result line) ∧
    (singleUpload w dir line).result = (setVideoUrl w line (match (isFileSizeOk w vd.Filename).2 with
            | some err => err.text
            | none => "file too small, likely ffmpeg error")).result := by
  unfold singleUpload
  simp only [bind_eq, pure_eq, Eff.bind, hrow]
  rcases hg : isFileSizeOk w vd.Filename with ⟨b, e⟩
  rw [hg] at hgate
  simp only at hgate
  subst hgate
  cases e with
  | none =>
    simp only [Eff.bind, Eff.pure, emit, List.nil_append, List.append_nil]
    cases hs : (setVideoUrl w line "file too small, likely ffmpeg error").result <;>
      simp [doneReport]
  | some err =>
    simp only [Eff.bind, Eff.pure, emit, List.nil_append, List.append_nil]
    cases hs : (setVideoUrl w line err.text).result <;> simp [doneReport]

theorem singleUpload_upload_fatal (w : World) (dir : String) (line : Int) (vd : VideoData)
    (msg : String)
    (hrow : (getRow w dir line).result = .ok vd)
    (hgate : (isFileSizeOk w vd.Filename).1 = true)
    (hup : (upload w vd).result = .error msg) :
    (singleUpload w dir line).events = (getRow w dir line).events ++ (upload w vd).events ∧
    (singleUpload w dir line).result = .error msg := by
  unfold singleUpload
  simp only [bind_eq, pure_eq, Eff.bind, hrow]
  rcases hg : isFileSizeOk w vd.Filename with ⟨b, e⟩
  rw [hg] at hgate
  simp only at hgate
  subst hgate
  simp only [Eff.bind, hup, Eff.pure, emit, List.nil_append, List.append_nil]
  simp

theorem singleUpload_row_fatal (w : World) (dir : String) (line : Int) (msg : String)
    (hrow : (getRow w dir line).result = .error msg) :
    (singleUpload w dir line).events = (getRow w dir line).events ∧
    (singleUpload w dir line).result = .error msg := by
  unfold singleUpload
  simp only [bind_eq, pure_eq, Eff.bind, hrow]
  simp
/-! ## Claims about the sequential functions -/

/-- C3: `isFileSizeOk` returns `(true, nil)` exactly for a file that opens, stats and
is larger than 1048576 bytes, `(false, nil)` for a file of at most 1048576 bytes,
`(false, err)` when open or stat fails, and never `true` with an error. -/
theorem isFileSizeOk_spec (w : World) (path : String) :
    (∀ f size, w.osOpen path = .ok f → w.statSize f = .ok size → size > 1048576 →
      isFileSizeOk w path = (true, none)) ∧
    (∀ f size, w.osOpen path = .ok f → w.statSize f = .ok size → size ≤ 1048576 →
      isFileSizeOk w path = (false, none)) ∧
    (∀ err, w.osOpen path = .error err → isFileSizeOk w path = (false, some err)) ∧
    (∀ f err, w.osOpen path = .ok f → w.statSize f = .error err →
      isFileSizeOk w path = (false, some err)) ∧
    ((isFileSizeOk w path).1 = true → (isFileSizeOk w path).2 = none) := by
  refine ⟨?_, ?_, ?_, ?_, ?_⟩
  · intro f size ho hs hsize
    simp only [isFileSizeOk, ho, hs]
    rw [if_pos (by omega)]
  · intro f size ho hs hsize
    simp only [isFileSizeOk, ho, hs]
    rw [if_neg (by omega)]
  · intro err ho
    simp [isFileSizeOk, ho]
  · intro f err ho hs
    simp [isFileSizeOk, ho, hs]
  · unfold isFileSizeOk
    cases ho : w.osOpen path with
    | error err => simp
    | ok f =>
      cases hs : w.statSize f with
      | error err => simp [hs]
      | ok size =>
        simp only [hs]
        split <;> simp

/-- C3 at concrete files: ten bytes, exactly 1 MiB, one byte more, and a path
that does not open. -/
theorem isFileSizeOk_spec_witness :
    isFileSizeOk smallFileWorld "a.mpg" = (false, none) ∧
    isFileSizeOk { quietWorld with osOpen := fun p => .ok ⟨p⟩, statSize := fun _ => .ok 1048576 }
      "a.mpg" = (false, none) ∧
    isFileSizeOk { quietWorld with osOpen := fun p => .ok ⟨p⟩, statSize := fun _ => .ok 1048577 }
      "a.mpg" = (true, none) ∧
    isFileSizeOk quietWorld "a.mpg" = (false, some ⟨"no such file or directory"⟩) :=
  ⟨(isFileSizeOk_spec smallFileWorld "a.mpg").2.1 ⟨"a.mpg"⟩ 10 rfl rfl (by decide),
   (isFileSizeOk_spec _ "a.mpg").2.1 ⟨"a.mpg"⟩ 1048576 rfl rfl (by decide),
   (isFileSizeOk_spec _ "a.mpg").1 ⟨"a.mpg"⟩ 1048577 rfl rfl (by decide),
   (isFileSizeOk_spec quietWorld "a.mpg").2.2.1 ⟨"no such file or directory"⟩ rfl⟩

/-- C4: for a row of at least ten string cells, `NewVideoData` returns the
descriptor with `Filename` the `path.Join` of `dir` and cell 9, `Keywords` cell 2,
`Category` "22", `Description` "cell6: cell7-cell8" and `Title` "cell1 cell3". -/
theorem NewVideoData_spec (cells : List String) (dir : String) (h : 10 ≤ cells.length) :
    NewVideoData (cells.map Cell.str) dir = some
      { Filename := pathJoin dir (cells.getD 9 "")
        Keywords := cells.getD 2 ""
        Category := "22"
        Description := cells.getD 6 "" ++ ": " ++ cells.getD 7 "" ++ "-" ++ cells.getD 8 ""
        Title := cells.getD 1 "" ++ " " ++ cells.getD 3 "" } := by
  match cells, h with
  | c0 :: c1 :: c2 :: c3 :: c4 :: c5 :: c6 :: c7 :: c8 :: c9 :: rest, _ =>
    simp [NewVideoData, assertString, fmtS]

/-- C4 on the sample row with base directory `apu`. -/
theorem NewVideoData_spec_witness :
    NewVideoData (sampleRow.map Cell.str) "apu" = some
      { Filename := "apu/out_2.mpg"
        Title := "1997.06.07 BEAC 97"
        Description := "apu/Kicsi_40.mpg: 0:01.09-4:55.08"
        Category := "22"
        Keywords := "beac" } :=
  (NewVideoData_spec sampleRow "apu" (by decide)).trans (by decide)

/-- C5: with the whitespace-only keywords `" "` the request of `upload` carries
the tag list `[" "]`, a list whose only tag is blank; in general the tags are
unset only for the empty keywords, `strings.Trim` with the empty cutset
removing nothing, and are the comma split otherwise. -/
theorem uploadVideo_blank_keywords :
    (uploadVideo
        { Filename := "apu/out_2.mpg", Title := "t", Description := "d", Category := "22",
          Keywords := " " }).Snippet.Tags = some [" "] ∧
    (uploadVideo
        { Filename := "apu/out_2.mpg", Title := "t", Description := "d", Category := "22",
          Keywords := "a,b,c" }).Snippet.Tags = some ["a", "b", "c"] ∧
    (∀ vd : VideoData, (uploadVideo vd).Snippet.Tags =
      if vd.Keywords = "" then none else some (stringsSplitComma vd.Keywords)) := by
  refine ⟨by decide, by decide, ?_⟩
  intro vd
  by_cases h : vd.Keywords = "" <;> simp [uploadVideo, stringsTrim, h]
/-- C6 fails: when the remote insert call fails, `upload` returns nothing; it
ends the process with a fatal message, and `singleUpload` writes nothing back
for the row. -/
theorem upload_insert_failure_is_fatal :
    (upload insertFailsWorld
        { Filename := "apu/out_2.mpg", Title := "1997.06.07 BEAC 97",
          Description := "apu/Kicsi_40.mpg: 0:01.09-4:55.08", Category := "22",
          Keywords := "beac" }).result =
      .error "Error making YouTube API call: quotaExceeded" ∧
    (singleUpload insertFailsWorld "apu" 7).result =
      .error "Error making YouTube API call: quotaExceeded" ∧
    writes (singleUpload insertFailsWorld "apu" 7).events = [] := by
  refine ⟨by rfl, by rfl, by decide⟩

/-- C6 as amended: `upload` returns the remote identifier when the client is
created, the file opens and the insert call succeeds; a failure to open the
file or of the insert call ends the process with a message carrying the error
text, and then `singleUpload` ends the same way without any write-back. -/
theorem upload_spec (w : World) (vd : VideoData) (hy : w.youtubeNew = none) :
    (∀ file id, w.osOpen vd.Filename = .ok file →
      w.videosInsert "snippet,status" (uploadVideo vd) file = .ok id →
      (upload w vd).result = .ok id) ∧
    (∀ err, w.osOpen vd.Filename = .error err →
      (upload w vd).result = .error ("Error opening " ++ vd.Filename ++ ": " ++ err.text)) ∧
    (∀ file err, w.osOpen vd.Filename = .ok file →
      w.videosInsert "snippet,status" (uploadVideo vd) file = .error err →
      (upload w vd).result = .error ("Error making YouTube API call: " ++ err.text)) ∧
    (∀ dir line msg, (getRow w dir line).result = .ok vd →
      (isFileSizeOk w vd.Filename).1 = true → (upload w vd).result = .error msg →
      (singleUpload w dir line).result = .error msg ∧
      writes (singleUpload w dir line).events = []) := by
  refine ⟨?_, ?_, ?_, ?_⟩
  · intro file id ho hi
    simp [upload, Eff.bind, emit, fatal, Eff.pure, hy, ho, hi]
  · intro err ho
    simp [upload, Eff.bind, emit, fatal, Eff.pure, hy, ho]
  · intro file err ho hi
    simp [upload, Eff.bind, emit, fatal, Eff.pure, hy, ho, hi]
  · intro dir line msg hrow hgate hup
    obtain ⟨hev, hres⟩ := singleUpload_upload_fatal w dir line vd msg hrow hgate hup
    refine ⟨hres, ?_⟩
    rw [hev, writes_append, (getRow_writes w dir line).1, upload_writes]
    rfl

/-- C6 as amended, at the world whose insert call fails. -/
theorem upload_spec_witness :
    (upload insertFailsWorld
        { Filename := "apu/out_2.mpg", Title := "1997.06.07 BEAC 97",
          Description := "apu/Kicsi_40.mpg: 0:01.09-4:55.08", Category := "22",
          Keywords := "beac" }).result =
      .error ("Error making YouTube API call: " ++ "quotaExceeded") :=
  (upload_spec insertFailsWorld _ rfl).2.2.1 ⟨"apu/out_2.mpg"⟩ ⟨"quotaExceeded"⟩ rfl rfl

/-- C7 fails: for a file of ten bytes `singleUpload` writes back the text
"file too small, likely ffmpeg error", not "file too small, likely export error". -/
theorem singleUpload_small_file_text :
    writes (singleUpload smallFileWorld "apu" 7).events =
      [(7, "file too small, likely ffmpeg error")] ∧
    writes (singleUpload smallFileWorld "apu" 7).events ≠
      [(7, "file too small, likely export error")] := by
  refine ⟨by decide, by decide⟩

/-- C7 as amended: when the size gate of a resolved row is not ok, `singleUpload`
does not call `upload` and calls `setVideoUrl` once, for that row, with
"file too small, likely ffmpeg error" when `isFileSizeOk` gave no error and with
the text of the error otherwise. -/
theorem singleUpload_gate_not_ok (w : World) (dir : String) (line : Int) (vd : VideoData)
    (hrow : (getRow w dir line).result = .ok vd)
    (hgate : (isFileSizeOk w vd.Filename).1 = false) :
    uploadCalls (singleUpload w dir line).events = [] ∧
    writes (singleUpload w dir line).events =
      [(line, match (isFileSizeOk w vd.Filename).2 with
              | some err => err.text
              | none => "file too small, likely ffmpeg error")] := by
  obtain ⟨hev, _⟩ := singleUpload_gate_fail w dir line vd hrow hgate
  rw [hev]
  simp [writes_append, uploadCalls_append, (getRow_writes w dir line).1,
    (getRow_writes w dir line).2, (setVideoUrl_writes w line _).1, (setVideoUrl_writes w line _).2,
    (doneReport_writes _ line).1, (doneReport_writes _ line).2]

/-- C7 as amended, at a file of ten bytes and at a file that does not open. -/
theorem singleUpload_gate_not_ok_witness :
    (uploadCalls (singleUpload smallFileWorld "apu" 7).events = [] ∧
      writes (singleUpload smallFileWorld "apu" 7).events =
        [(7, "file too small, likely ffmpeg error")]) ∧
    (uploadCalls (singleUpload quietWorld "apu" 7).events = [] ∧
      writes (singleUpload quietWorld "apu" 7).events =
        [(7, "no such file or directory")]) :=
  ⟨singleUpload_gate_not_ok smallFileWorld "apu" 7
      { Filename := "apu/out_2.mpg", Title := "1997.06.07 BEAC 97",
        Description := "apu/Kicsi_40.mpg: 0:01.09-4:55.08", Category := "22",
        Keywords := "beac" } (by rfl) (by rfl),
   singleUpload_gate_not_ok quietWorld "apu" 7
      { Filename := "apu/out_2.mpg", Title := "1997.06.07 BEAC 97",
        Description := "apu/Kicsi_40.mpg: 0:01.09-4:55.08", Category := "22",
        Keywords := "beac" } (by rfl) (by rfl)⟩
/-- C8: when the size gate of the resolved row is ok and `upload` returns `id`,
`singleUpload` calls `setVideoUrl` once, for its own line, with
"https://youtu.be/" followed by `id`; `setVideoUrl` sends whatever value it is
given, an address or a failure reason, unchanged as the single cell of the
range `Sheet1!L<line>:L<line>`; and a failure reason of the size gate is the
value of the one call for the line. -/
theorem singleUpload_write_back (w : World) (dir : String) (line : Int) (vd : VideoData)
    (hrow : (getRow w dir line).result = .ok vd) :
    (∀ id, (isFileSizeOk w vd.Filename).1 = true → (upload w vd).result = .ok id →
      writes (singleUpload w dir line).events = [(line, "https://youtu.be/" ++ id)] ∧
      (singleUpload w dir line).events =
        (getRow w dir line).events ++ ((upload w vd).events ++
          ((setVideoUrl w line ("https://youtu.be/" ++ id)).events ++
            doneReport (setVideoUrl w line ("https://youtu.be/" ++ id)).result line))) ∧
    (∀ url, w.sheetsNew = none →
      (setVideoUrl w line url).events =
        [.setVideoUrlCall line url,
         .sheetsUpdate ("Sheet1!L" ++ fmtD line ++ ":L" ++ fmtD line) [[.str url]] "RAW"]) ∧
    (∀ reason, (isFileSizeOk w vd.Filename).1 = false →
      reason = (match (isFileSizeOk w vd.Filename).2 with
                | some err => err.text
                | none => "file too small, likely ffmpeg error") →
      writes (singleUpload w dir line).events = [(line, reason)] ∧
      (singleUpload w dir line).events =
        (getRow w dir line).events ++ ((setVideoUrl w line reason).events ++
          doneReport (setVideoUrl w line reason).result line)) := by
  refine ⟨?_, ?_, ?_⟩
  · intro id hgate hup
    obtain ⟨hev, _⟩ := singleUpload_gate_ok w dir line vd id hrow hgate hup
    refine ⟨?_, hev⟩
    rw [hev]
    simp [writes_append, (getRow_writes w dir line).1, upload_writes,
      (setVideoUrl_writes w line _).1, (doneReport_writes _ line).1]
  · intro url hs
    unfold setVideoUrl
    simp only [bind_eq, pure_eq, Eff.bind, emit, fatal, Eff.pure, hs]
    cases h : w.valuesUpdate ("Sheet1!L" ++ fmtD line ++ ":L" ++ fmtD line) [[Cell.str url]] "RAW" <;>
      simp [h]
  · intro reason hgate hreason
    obtain ⟨hev, _⟩ := singleUpload_gate_fail w dir line vd hrow hgate
    rw [← hreason] at hev
    refine ⟨?_, hev⟩
    rw [hev]
    simp [writes_append, (getRow_writes w dir line).1,
      (setVideoUrl_writes w line _).1, (doneReport_writes _ line).1]

/-- C8 at line 7 of the world where everything succeeds: the events of
`singleUpload` end with the write of `https://youtu.be/abc123` into
`Sheet1!L7:L7` and the report. -/
theorem singleUpload_write_back_witness :
    writes (singleUpload happyWorld "apu" 7).events = [(7, "https://youtu.be/" ++ "abc123")] ∧
    (setVideoUrl happyWorld 7 "https://youtu.be/abc123").events =
      [.setVideoUrlCall 7 "https://youtu.be/abc123",
       .sheetsUpdate "Sheet1!L7:L7" [[.str "https://youtu.be/abc123"]] "RAW"] :=
  ⟨((singleUpload_write_back happyWorld "apu" 7
      { Filename := "apu/out_2.mpg", Title := "1997.06.07 BEAC 97",
        Description := "apu/Kicsi_40.mpg: 0:01.09-4:55.08", Category := "22",
        Keywords := "beac" } (by rfl)).1 "abc123" (by rfl) (by rfl)).1,
   ((singleUpload_write_back happyWorld "apu" 7
      { Filename := "apu/out_2.mpg", Title := "1997.06.07 BEAC 97",
        Description := "apu/Kicsi_40.mpg: 0:01.09-4:55.08", Category := "22",
        Keywords := "beac" } (by rfl)).2.1 "https://youtu.be/abc123" rfl).trans (by decide)⟩

/-- C9 fails: a row of ten cells whose date cell (position 1) holds a number
still resolves; `Sprintf` renders the cell in its bad-verb form. -/
theorem NewVideoData_numeric_date :
    NewVideoData numericDateRow "apu" = some
      { Filename := "apu/out_2.mpg"
        Title := "%!s(float64=1997) BEAC 97"
        Description := "apu/Kicsi_40.mpg: 0:01.09-4:55.08"
        Category := "22"
        Keywords := "beac" } := by
  decide

/-- C9 as amended: `NewVideoData` returns a descriptor exactly when the row has at
least ten cells and the cells at positions 9 and 2 hold strings; so it fails
for every row of fewer than ten cells and for every row whose cell 9 or cell 2
is not a string. -/
theorem NewVideoData_fails_iff (row : List Cell) (dir : String) :
    NewVideoData row dir = none ↔
      (row.length < 10 ∨ (∀ s, row.get? 9 ≠ some (.str s)) ∨ (∀ s, row.get? 2 ≠ some (.str s))) := by
  by_cases hlen : row.length < 10
  · have h9 : row[9]? = none := List.getElem?_eq_none (by omega)
    simp [NewVideoData, h9, hlen]
  · have hge : 10 ≤ row.length := by omega
    match row, hge with
    | c0 :: c1 :: c2 :: c3 :: c4 :: c5 :: c6 :: c7 :: c8 :: c9 :: rest, _ =>
      cases c9 <;> cases c2 <;> simp [NewVideoData, assertString]

/-- C10 fails: with `from = -1` the argument check passes; `main` authorizes and
starts the workers on the range from -1 to 5. -/
theorem mainStart_negative_from :
    (mainStart quietWorld { dir := "videos", fromLine := -1, toLine := 5 }).result =
      .ok (initSched { dir := "videos", fromLine := -1, toLine := 5 }) ∧
    (mainStart quietWorld { dir := "videos", fromLine := -1, toLine := 5 }).events =
      [.authPrompt, .tokenExchange "code"] := by
  refine ⟨by rfl, by decide⟩

/-- C10 as amended: the argument check stops the run exactly when `dir` is empty,
`from` is zero or `to` is zero: then `main` prints the usage and exits fatally
having done nothing else; every other triple, negative lines included, passes
on to the authorization. -/
theorem mainStart_argument_check (w : World) (args : Args) :
    ((args.dir = "" ∨ args.fromLine = 0 ∨ args.toLine = 0) →
      (mainStart w args).events = [.usage] ∧
      (mainStart w args).result = .error "Please provide all arguments!") ∧
    (¬ (args.dir = "" ∨ args.fromLine = 0 ∨ args.toLine = 0) →
      (mainStart w args).events = (getClient w).events ∧
      ((getClient w).result = .ok () → (mainStart w args).result = .ok (initSched args))) := by
  constructor
  · intro h
    simp [mainStart, h, Eff.bind, emit, fatal]
  · intro h
    simp only [mainStart, if_neg h, bind_eq, pure_eq, Eff.bind, Eff.pure]
    cases hc : (getClient w).result <;> simp

/-- C10 as amended, at an empty directory, a zero `from` and a zero `to`. -/
theorem mainStart_argument_check_witness :
    ((mainStart quietWorld { dir := "", fromLine := 1, toLine := 5 }).events = [.usage] ∧
      (mainStart quietWorld { dir := "", fromLine := 1, toLine := 5 }).result =
        .error "Please provide all arguments!") ∧
    ((mainStart quietWorld { dir := "videos", fromLine := 0, toLine := 5 }).events = [.usage] ∧
      (mainStart quietWorld { dir := "videos", fromLine := 0, toLine := 5 }).result =
        .error "Please provide all arguments!") ∧
    ((mainStart quietWorld { dir := "videos", fromLine := 1, toLine := 0 }).events = [.usage] ∧
      (mainStart quietWorld { dir := "videos", fromLine := 1, toLine := 0 }).result =
        .error "Please provide all arguments!") :=
  ⟨(mainStart_argument_check quietWorld _).1 (Or.inl rfl),
   (mainStart_argument_check quietWorld _).1 (Or.inr (Or.inl rfl)),
   (mainStart_argument_check quietWorld _).1 (Or.inr (Or.inr rfl))⟩
/-! ## The scheduler: invariant -/

theorem wrap64_eq (x : Int) (h1 : minInt ≤ x) (h2 : x ≤ maxInt) : wrap64 x = x := by
  unfold wrap64
  unfold minInt at h1
  unfold maxInt at h2
  rw [Int.emod_eq_of_lt (by omega) (by omega)]
  omega

theorem wrap64_le (x : Int) : wrap64 x ≤ maxInt := by
  unfold wrap64 maxInt
  have := Int.emod_lt_of_pos (x + 2 ^ 63) (show (0 : Int) < 2 ^ 64 by norm_num)
  omega

theorem rowsFrom_length (a b : Int) : (rowsFrom a b).length = (b - a).toNat := by
  simp [rowsFrom]

theorem rowsFrom_succ (a b : Int) (h : a ≤ b) : rowsFrom a (b + 1) = rowsFrom a b ++ [b] := by
  unfold rowsFrom
  have h1 : (b + 1 - a).toNat = (b - a).toNat + 1 := by omega
  rw [h1, List.range_succ, List.map_append]
  simp
  omega

theorem rowsFrom_empty (a b : Int) (h : b ≤ a) : rowsFrom a b = [] := by
  unfold rowsFrom
  have h1 : (b - a).toNat = 0 := by omega
  rw [h1]
  rfl

theorem sum_map_set {M : Type} [AddCommMonoid M] (f : Worker → M) (ws : List Worker) (k : Nat)
    (x y : Worker) (h : ws.get? k = some x) :
    ((ws.set k y).map f).sum + f x = (ws.map f).sum + f y := by
  induction ws generalizing k with
  | nil => simp at h
  | cons a rest ih =>
    cases k with
    | zero =>
      simp at h
      subst h
      simp [List.set, add_comm, add_left_comm]
    | succ n =>
      simp at h
      have := ih n (by simpa using h)
      simp only [List.set, List.map_cons, List.sum_cons, add_assoc, this]
theorem inv_init (args : Args) : Inv args (initSched args) where
  workers_length := by simp [initSched]
  conservation := by
    simp [initSched, holdingJobs, finishedJobs, numWorkers, Worker.holding, Worker.finished,
      enqueuedUpTo, rowsFrom_empty]
  written := by
    intro _
    simp [initSched, finishedJobs, numWorkers, Worker.finished, writeLines]
  produce := by
    intro i hi
    simp [initSched] at hi
    subst hi
    simp [initSched]
  collect := by
    intro i hi
    simp [initSched] at hi
  done := by
    intro hi
    simp [initSched] at hi
  exited := by
    intro h
    simp [initSched, numWorkers] at h

theorem inv_stepMain {args : Args} {s s1 : Sched} (hfrom : minInt ≤ args.fromLine)
    (hto : args.toLine < maxInt) (hinv : Inv args s) (hexit : s.exit = none)
    (h : stepMain args s = some s1) : Inv args s1 := by
  obtain ⟨hlen, hcons, hwr, hprod, hcoll, hdone, hexd⟩ := hinv
  unfold stepMain at h
  cases hpc : s.pc with
  | produce i =>
    obtain ⟨h1, h2, h3, h4⟩ := hprod i hpc
    simp only [hpc] at h
    split at h
    · rename_i hle
      split at h
      · injection h with h
        subst h
        have hw : wrap64 (i + 1) = i + 1 := wrap64_eq _ (by omega) (by omega)
        refine ⟨hlen, ?_, ?_, ?_, ?_, ?_, ?_⟩
        · simp only [enqueuedUpTo, hw]
          rw [rowsFrom_succ _ _ h1]
          rw [hpc] at hcons
          simp only [enqueuedUpTo] at hcons
          rw [← Multiset.coe_add, ← Multiset.coe_add, ← hcons]
          simp only [← Multiset.coe_add, Multiset.coe_singleton]
          abel
        · exact hwr
        · intro i' hi'
          simp only [MainPc.produce.injEq] at hi'
          subst hi'
          rw [hw]
          refine ⟨by omega, Or.inl (by omega), h3, h4⟩
        · intro i' hi'
          simp at hi'
        · intro hi'
          simp at hi'
        · intro hx
          have := (hexd hx).1
          simp [h3] at this
      · simp at h
    · rename_i hgt
      injection h with h
      subst h
      refine ⟨hlen, ?_, ?_, ?_, ?_, ?_, ?_⟩
      · rw [hpc] at hcons
        simp only [enqueuedUpTo] at hcons ⊢
        rw [hcons]
        rcases h2 with h2 | h2
        · have : i = args.toLine + 1 := by omega
          rw [this]
        · rw [rowsFrom_empty _ _ (by omega), rowsFrom_empty _ _ (by omega)]
      · exact hwr
      · intro i' hi'
        simp at hi'
      · intro i' hi'
        simp only [MainPc.collect.injEq] at hi'
        subst hi'
        simp [h4]
      · intro hi'
        simp at hi'
      · intro hx
        have := (hexd hx).1
        simp [h3] at this
  | collect i =>
    obtain ⟨h1, h2, h3, h4⟩ := hcoll i hpc
    simp only [hpc] at h
    split at h
    · rename_i hle
      split at h
      · simp at h
      · rename_i r rs hres
        injection h with h
        subst h
        have hw : wrap64 (i + 1) = i + 1 := wrap64_eq _ (by omega) (by omega)
        refine ⟨hlen, ?_, ?_, ?_, ?_, ?_, ?_⟩
        · rw [hpc, hres] at hcons
          simp only [enqueuedUpTo] at hcons ⊢
          rw [← hcons]
          simp only [← Multiset.coe_add, ← Multiset.cons_coe, ← Multiset.singleton_add]
          abel
        · intro he
          rw [hwr he, hres]
          simp only [← Multiset.coe_add, ← Multiset.cons_coe, ← Multiset.singleton_add]
          abel
        · intro i' hi'
          simp at hi'
        · intro i' hi'
          simp only [MainPc.collect.injEq] at hi'
          subst hi'
          rw [hw]
          refine ⟨by omega, Or.inl (by omega), h3, ?_⟩
          simp
          omega
        · intro hi'
          simp at hi'
        · intro hx
          exact hexd hx
    · rename_i hgt
      injection h with h
      subst h
      refine ⟨hlen, ?_, ?_, ?_, ?_, ?_, ?_⟩
      · rw [hpc] at hcons
        simpa only [enqueuedUpTo] using hcons
      · exact hwr
      · intro i' hi'
        simp at hi'
      · intro i' hi'
        simp at hi'
      · intro _
        refine ⟨hexit, h3, ?_⟩
        simp only
        omega
      · exact hexd
  | done =>
    simp [hpc] at h
theorem holdingJobs_set (ws : List Worker) (k : Nat) (x y : Worker) (h : ws.get? k = some x) :
    holdingJobs (ws.set k y) + x.holding = holdingJobs ws + y.holding :=
  sum_map_set Worker.holding ws k x y h

theorem finishedJobs_set (ws : List Worker) (k : Nat) (x y : Worker) (h : ws.get? k = some x) :
    finishedJobs (ws.set k y) + x.finished = finishedJobs ws + y.finished :=
  sum_map_set Worker.finished ws k x y h

theorem weight_set (ws : List Worker) (k : Nat) (x y : Worker) (h : ws.get? k = some x) :
    ((ws.set k y).map Worker.weight).sum + x.weight = (ws.map Worker.weight).sum + y.weight :=
  sum_map_set Worker.weight ws k x y h

theorem singleUpload_writeLines (w : World) (dir : String) (line : Int)
    (h : (singleUpload w dir line).result = .ok ()) :
    writeLines (singleUpload w dir line).events = [line] := by
  rw [writeLines_eq_map]
  cases hrow : (getRow w dir line).result with
  | error msg =>
    rw [(singleUpload_row_fatal w dir line msg hrow).2] at h
    simp at h
  | ok vd =>
    cases hgate : (isFileSizeOk w vd.Filename).1 with
    | false =>
      rw [(singleUpload_gate_fail w dir line vd hrow hgate).1]
      simp [writes_append, (getRow_writes w dir line).1,
        (setVideoUrl_writes w line _).1, (doneReport_writes _ line).1]
    | true =>
      cases hup : (upload w vd).result with
      | error msg =>
        rw [(singleUpload_upload_fatal w dir line vd msg hrow hgate hup).2] at h
        simp at h
      | ok id =>
        rw [(singleUpload_gate_ok w dir line vd id hrow hgate hup).1]
        simp [writes_append, (getRow_writes w dir line).1, upload_writes,
          (setVideoUrl_writes w line _).1, (doneReport_writes _ line).1]

theorem inv_stepWorker {w : World} {args : Args} {k : Nat} {s s1 : Sched}
    (hinv : Inv args s) (hexit : s.exit = none) (hnd : s.pc ≠ .done)
    (h : stepWorker w args k s = some s1) : Inv args s1 := by
  obtain ⟨hlen, hcons, hwr, hprod, hcoll, hdone, hexd⟩ := hinv
  unfold stepWorker at h
  cases hk : s.workers.get? k with
  | none =>
    rw [hk] at h
    simp at h
  | some x =>
    have hH := fun y => holdingJobs_set s.workers k x y hk
    have hF := fun y => finishedJobs_set s.workers k x y hk
    cases x with
    | idle =>
      simp only [hk] at h
      split at h
      · rename_i j js hjobs
        injection h with h
        subst h
        have hH := hH (.busy j)
        have hF := hF (.busy j)
        simp only [Worker.holding, Worker.finished, add_zero] at hH hF
        refine ⟨by simpa using hlen, ?_, ?_, hprod, hcoll, hdone, ?_⟩
        · simp only
          rw [hH, hF, ← hcons, hjobs]
          simp only [← Multiset.cons_coe, ← Multiset.singleton_add]
          abel
        · intro he
          simp only
          rw [hF]
          exact hwr he
        · intro hx
          simp only at hx
          rcases List.mem_or_eq_of_mem_set hx with hx | hx
          · have := (hexd hx).2
            simp [hjobs] at this
          · simp at hx
      · rename_i hjobs
        split at h
        · rename_i hclosed
          injection h with h
          subst h
          have hH := hH .exited
          have hF := hF .exited
          simp only [Worker.holding, Worker.finished, add_zero] at hH hF
          refine ⟨by simpa using hlen, ?_, ?_, hprod, hcoll, hdone, ?_⟩
          · simp only
            rw [hH, hF, ← hcons]
          · intro he
            simp only
            rw [hF]
            exact hwr he
          · intro _
            exact ⟨hclosed, hjobs⟩
        · simp at h
    | busy j =>
      simp only [hk] at h
      split at h
      · rename_i u hres
        injection h with h
        subst h
        have hH := hH (.sending j)
        have hF := hF (.sending j)
        simp only [Worker.holding, Worker.finished, add_zero] at hH hF
        refine ⟨by simpa using hlen, ?_, ?_, hprod, hcoll, hdone, ?_⟩
        · simp only
          rw [← hcons, ← hH, hF]
          abel
        · intro he
          simp only
          rw [writeLines_append, singleUpload_writeLines w args.dir j hres, ← Multiset.coe_add,
            hwr hexit, hF]
          simp only [← Multiset.coe_add, Multiset.coe_singleton]
          abel
        · intro hx
          simp only at hx
          rcases List.mem_or_eq_of_mem_set hx with hx | hx
          · exact hexd hx
          · simp at hx
      · rename_i msg hres
        injection h with h
        subst h
        refine ⟨hlen, hcons, ?_, hprod, hcoll, ?_, hexd⟩
        · intro he
          simp at he
        · intro hd
          exact absurd hd hnd
    | sending j =>
      simp only [hk] at h
      split at h
      · injection h with h
        subst h
        have hH := hH .idle
        have hF := hF .idle
        simp only [Worker.holding, Worker.finished, add_zero] at hH hF
        refine ⟨by simpa using hlen, ?_, ?_, hprod, hcoll, hdone, ?_⟩
        · simp only
          rw [← hcons, hH, ← hF]
          simp only [← Multiset.coe_add, Multiset.coe_singleton]
          abel
        · intro he
          simp only
          rw [hwr he, ← hF]
          simp only [← Multiset.coe_add, Multiset.coe_singleton]
          abel
        · intro hx
          simp only at hx
          rcases List.mem_or_eq_of_mem_set hx with hx | hx
          · exact hexd hx
          · simp at hx
      · simp at h
    | exited =>
      rw [hk] at h
      simp at h
theorem step_not_ended {w : World} {args : Args} {a : Actor} {s s1 : Sched}
    (h : step w args a s = some s1) : s.exit = none ∧ s.pc ≠ .done := by
  unfold step at h
  split at h
  · simp at h
  · rename_i hn
    simp only [not_or] at hn
    refine ⟨?_, hn.2⟩
    cases he : s.exit with
    | none => rfl
    | some m => simp [he] at hn

theorem step_eq {w : World} {args : Args} {a : Actor} {s s1 : Sched}
    (h : step w args a s = some s1) :
    (a = .main ∧ stepMain args s = some s1) ∨ (∃ k, a = .worker k ∧ stepWorker w args k s = some s1) := by
  unfold step at h
  split at h
  · simp at h
  · cases a with
    | main => exact Or.inl ⟨rfl, h⟩
    | worker k => exact Or.inr ⟨k, rfl, h⟩

theorem inv_step {w : World} {args : Args} {a : Actor} {s s1 : Sched}
    (hfrom : minInt ≤ args.fromLine) (hto : args.toLine < maxInt) (hinv : Inv args s)
    (h : step w args a s = some s1) : Inv args s1 := by
  obtain ⟨hexit, hnd⟩ := step_not_ended h
  rcases step_eq h with ⟨_, hm⟩ | ⟨k, _, hw⟩
  · exact inv_stepMain hfrom hto hinv hexit hm
  · exact inv_stepWorker hinv hexit hnd hw

theorem inv_run {w : World} {args : Args} (hfrom : minInt ≤ args.fromLine)
    (hto : args.toLine < maxInt) (sched : List Actor) {s s1 : Sched} (hinv : Inv args s)
    (h : run w args sched s = some s1) : Inv args s1 := by
  induction sched generalizing s with
  | nil =>
    simp only [run, Option.some.injEq] at h
    subst h
    exact hinv
  | cons a rest ih =>
    simp only [run] at h
    cases hs : step w args a s with
    | none => simp [hs] at h
    | some s2 =>
      rw [hs] at h
      exact ih (inv_step hfrom hto hinv hs) h

/-- With `to` the largest `int` the condition `i <= to` never fails: `main`
stays in its first loop for ever. -/
theorem produce_forever {w : World} {args : Args} (hto : args.toLine = maxInt)
    (sched : List Actor) {s s1 : Sched} (hs : ∃ i, s.pc = .produce i ∧ i ≤ maxInt)
    (h : run w args sched s = some s1) : ∃ i, s1.pc = .produce i ∧ i ≤ maxInt := by
  induction sched generalizing s with
  | nil =>
    simp only [run, Option.some.injEq] at h
    subst h
    exact hs
  | cons a rest ih =>
    simp only [run] at h
    cases hst : step w args a s with
    | none => simp [hst] at h
    | some s2 =>
      rw [hst] at h
      refine ih ?_ h
      obtain ⟨i, hpc, hi⟩ := hs
      rcases step_eq hst with ⟨_, hm⟩ | ⟨k, _, hw⟩
      · unfold stepMain at hm
        simp only [hpc] at hm
        rw [if_pos (by omega)] at hm
        split at hm
        · injection hm with hm
          subst hm
          exact ⟨_, rfl, wrap64_le _⟩
        · simp at hm
      · refine ⟨i, ?_, hi⟩
        unfold stepWorker at hw
        rw [← hpc]
        split at hw
        · simp at hw
        · split at hw
          · injection hw with hw
            subst hw
            rfl
          · split at hw
            · injection hw with hw
              subst hw
              rfl
            · simp at hw
        · split at hw
          · injection hw with hw
            subst hw
            rfl
          · injection hw with hw
            subst hw
            rfl
        · split at hw
          · injection hw with hw
            subst hw
            rfl
          · simp at hw
        · simp at hw

theorem rowsFrom_mem (a b i : Int) : i ∈ rowsFrom a b ↔ a ≤ i ∧ i < b := by
  unfold rowsFrom
  simp only [List.mem_map, List.mem_range]
  constructor
  · rintro ⟨k, hk, rfl⟩
    omega
  · intro h
    exact ⟨(i - a).toNat, by omega, by omega⟩

theorem rowsFrom_nodup (a b : Int) : (rowsFrom a b).Nodup := by
  unfold rowsFrom
  refine List.Nodup.map ?_ (List.nodup_range _)
  intro x y hxy
  simp only at hxy
  omega

theorem rowsFrom_count (a b i : Int) :
    (rowsFrom a b).count i = if a ≤ i ∧ i < b then 1 else 0 := by
  split
  · rename_i h
    exact List.count_eq_one_of_mem (rowsFrom_nodup a b) ((rowsFrom_mem a b i).mpr h)
  · rename_i h
    exact List.count_eq_zero_of_not_mem (fun hm => h ((rowsFrom_mem a b i).mp hm))

/-- At the return of `main` every place but `recvd` is empty, and the lines of
the calls to `setVideoUrl` are the rows of the range. -/
theorem inv_at_done {args : Args} {s : Sched} (hinv : Inv args s) (hd : s.pc = .done) :
    s.exit = none ∧ s.recvd.length = (args.toLine + 1 - args.fromLine).toNat ∧
    (writeLines s.log).Perm (rowsFrom args.fromLine (args.toLine + 1)) := by
  obtain ⟨hexit, _, hrecv⟩ := hinv.done hd
  have hcons := hinv.conservation
  rw [hd] at hcons
  simp only [enqueuedUpTo] at hcons
  have hcard := congrArg Multiset.card hcons
  simp only [Multiset.card_add, Multiset.coe_card, rowsFrom_length] at hcard
  have hj : s.jobs = [] := List.eq_nil_of_length_eq_zero (by omega)
  have hr : s.results = [] := List.eq_nil_of_length_eq_zero (by omega)
  have hh : holdingJobs s.workers = 0 := Multiset.card_eq_zero.mp (by omega)
  have hf : finishedJobs s.workers = 0 := Multiset.card_eq_zero.mp (by omega)
  refine ⟨hexit, hrecv, ?_⟩
  have hw := hinv.written hexit
  rw [hj, hr, hh, hf] at hcons
  rw [hf, hr] at hw
  simp only [Multiset.coe_nil, zero_add, add_zero] at hcons hw
  rw [hcons] at hw
  exact Multiset.coe_eq_coe.mp hw

/-! ## The scheduler: progress and termination -/

theorem workers_sending_or (ws : List Worker) :
    (∃ k x, ws.get? k = some x ∧ ∀ j, x ≠ .sending j) ∨
      Multiset.card (finishedJobs ws) = ws.length := by
  induction ws with
  | nil => right; rfl
  | cons a rest ih =>
    cases a with
    | sending j =>
      rcases ih with ⟨k, x, hk, hx⟩ | ih
      · exact Or.inl ⟨k + 1, x, by simpa using hk, hx⟩
      · right
        simp only [finishedJobs, List.map_cons, List.sum_cons, Worker.finished,
          Multiset.card_add, Multiset.card_singleton, List.length_cons] at ih ⊢
        omega
    | idle => exact Or.inl ⟨0, .idle, rfl, by simp⟩
    | busy j => exact Or.inl ⟨0, .busy j, rfl, by simp⟩
    | exited => exact Or.inl ⟨0, .exited, rfl, by simp⟩

theorem workers_exited_or (ws : List Worker) :
    (∃ k x, ws.get? k = some x ∧ x ≠ .exited) ∨ (∀ x ∈ ws, x = Worker.exited) := by
  induction ws with
  | nil => right; simp
  | cons a rest ih =>
    cases a with
    | exited =>
      rcases ih with ⟨k, x, hk, hx⟩ | ih
      · exact Or.inl ⟨k + 1, x, by simpa using hk, hx⟩
      · right
        simpa using ih
    | idle => exact Or.inl ⟨0, .idle, rfl, by simp⟩
    | busy j => exact Or.inl ⟨0, .busy j, rfl, by simp⟩
    | sending j => exact Or.inl ⟨0, .sending j, rfl, by simp⟩

theorem jobs_of_all_exited (ws : List Worker) (h : ∀ x ∈ ws, x = Worker.exited) :
    holdingJobs ws = 0 ∧ finishedJobs ws = 0 := by
  induction ws with
  | nil => exact ⟨rfl, rfl⟩
  | cons a rest ih =>
    have ha : a = .exited := h a (by simp)
    subst ha
    have := ih (fun x hx => h x (by simp [hx]))
    simpa [holdingJobs, finishedJobs, Worker.holding, Worker.finished] using this

theorem mem_of_get? {ws : List Worker} {k : Nat} {x : Worker} (h : ws.get? k = some x) :
    x ∈ ws := List.get?_mem h

/-- A worker that is not blocked can step: one at its receive when `jobs` holds
a value or is closed, one holding a job, one at its send when `results` has room. -/
theorem stepWorker_isSome (w : World) (args : Args) (k : Nat) (s : Sched) (x : Worker)
    (hk : s.workers.get? k = some x)
    (hx : (x = .idle ∧ (s.jobs ≠ [] ∨ s.jobsClosed = true)) ∨ (∃ j, x = .busy j) ∨
      (∃ j, x = .sending j ∧ s.results.length < chanCap)) :
    (stepWorker w args k s).isSome = true := by
  unfold stepWorker
  rw [hk]
  rcases hx with ⟨rfl, hj⟩ | ⟨j, rfl⟩ | ⟨j, rfl, hr⟩
  · simp only
    cases hjobs : s.jobs with
    | cons j js => rfl
    | nil =>
      rcases hj with hj | hj
      · exact absurd hjobs hj
      · simp [hj]
  · simp only
    cases (singleUpload w args.dir j).result <;> rfl
  · simp [hr]

theorem step_of_not_ended (w : World) (args : Args) (a : Actor) (s : Sched)
    (hne : ¬ s.ended) :
    step w args a s =
      match a with
      | .main => stepMain args s
      | .worker k => stepWorker w args k s := by
  unfold step
  unfold Sched.ended at hne
  rw [if_neg (by tauto)]

/-- No deadlock: in a state of the invariant that has not ended, with at most
2003 rows in the range, some goroutine can step. -/
theorem progress_of_inv (w : World) {args : Args} {s : Sched} (hinv : Inv args s)
    (hM : args.toLine - args.fromLine + 1 ≤ 2003) (hne : ¬ s.ended) :
    ∃ a, (step w args a s).isSome = true := by
  have hcons := hinv.conservation
  have hcard := congrArg Multiset.card hcons
  simp only [Multiset.card_add, Multiset.coe_card, rowsFrom_length] at hcard
  have hlen := hinv.workers_length
  cases hpc : s.pc with
  | done => exact absurd (Or.inl hpc) hne
  | produce i =>
    obtain ⟨h1, h2, h3, h4⟩ := hinv.produce i hpc
    rw [hpc] at hcard
    simp only [enqueuedUpTo] at hcard
    by_cases hle : i ≤ args.toLine
    · by_cases hroom : s.jobs.length < chanCap
      · refine ⟨.main, ?_⟩
        rw [step_of_not_ended w args _ s hne]
        simp [stepMain, hpc, hle, hroom]
      · have hjobs : s.jobs ≠ [] := by
          intro h0
          rw [h0] at hroom
          simp [chanCap] at hroom
        rcases workers_sending_or s.workers with ⟨k, x, hk, hx⟩ | hall
        · refine ⟨.worker k, ?_⟩
          rw [step_of_not_ended w args _ s hne]
          refine stepWorker_isSome w args k s x hk ?_
          cases x with
          | idle => exact Or.inl ⟨rfl, Or.inl hjobs⟩
          | busy j => exact Or.inr (Or.inl ⟨j, rfl⟩)
          | sending j => exact absurd rfl (hx j)
          | exited => exact absurd (hinv.exited (mem_of_get? hk)).2 hjobs
        · by_cases hres : s.results.length < chanCap
          · have h3w : 0 < s.workers.length := by rw [hlen]; decide
            obtain ⟨x, hk⟩ : ∃ x, s.workers.get? 0 = some x := by
              cases hws : s.workers with
              | nil => simp [hws] at h3w
              | cons a rest => exact ⟨a, rfl⟩
            rcases hfin : x with _ | j | j | _
            · refine ⟨.worker 0, ?_⟩
              rw [step_of_not_ended w args _ s hne]
              exact stepWorker_isSome w args 0 s x hk (Or.inl ⟨hfin, Or.inl hjobs⟩)
            · refine ⟨.worker 0, ?_⟩
              rw [step_of_not_ended w args _ s hne]
              exact stepWorker_isSome w args 0 s x hk (Or.inr (Or.inl ⟨j, hfin⟩))
            · refine ⟨.worker 0, ?_⟩
              rw [step_of_not_ended w args _ s hne]
              exact stepWorker_isSome w args 0 s x hk (Or.inr (Or.inr ⟨j, hfin, hres⟩))
            · rw [hfin] at hk
              exact absurd (hinv.exited (mem_of_get? hk)).2 hjobs
          · exfalso
            rw [hall, hlen] at hcard
            simp only [chanCap, numWorkers] at hroom hres hcard
            omega
    · refine ⟨.main, ?_⟩
      rw [step_of_not_ended w args _ s hne]
      simp [stepMain, hpc, hle]
  | collect i =>
    obtain ⟨h1, h2, h3, h4⟩ := hinv.collect i hpc
    rw [hpc] at hcard
    simp only [enqueuedUpTo] at hcard
    by_cases hle : i ≤ args.toLine
    · cases hres : s.results with
      | cons r rs =>
        refine ⟨.main, ?_⟩
        rw [step_of_not_ended w args _ s hne]
        simp [stepMain, hpc, hle, hres]
      | nil =>
        rcases workers_exited_or s.workers with ⟨k, x, hk, hx⟩ | hallx
        · refine ⟨.worker k, ?_⟩
          rw [step_of_not_ended w args _ s hne]
          refine stepWorker_isSome w args k s x hk ?_
          cases x with
          | idle => exact Or.inl ⟨rfl, Or.inr h3⟩
          | busy j => exact Or.inr (Or.inl ⟨j, rfl⟩)
          | sending j => exact Or.inr (Or.inr ⟨j, rfl, by simp [hres, chanCap]⟩)
          | exited => exact absurd rfl hx
        · exfalso
          have h3w : 0 < s.workers.length := by rw [hlen]; decide
          obtain ⟨hh, hf⟩ := jobs_of_all_exited s.workers hallx
          have hex : Worker.exited ∈ s.workers := by
            cases hws : s.workers with
            | nil => simp [hws] at h3w
            | cons a rest =>
              have := hallx a (by simp [hws])
              simp [this]
          have hj := (hinv.exited hex).2
          rw [hh, hf, hj, hres] at hcard
          simp at hcard
          omega
    · refine ⟨.main, ?_⟩
      rw [step_of_not_ended w args _ s hne]
      simp [stepMain, hpc, hle]

theorem remainingWork_stepMain {args : Args} {s s1 : Sched} (hfrom : minInt ≤ args.fromLine)
    (hto : args.toLine < maxInt) (hinv : Inv args s) (hexit : s.exit = none)
    (h : stepMain args s = some s1) : remainingWork args s1 < remainingWork args s := by
  unfold stepMain at h
  cases hpc : s.pc with
  | produce i =>
    obtain ⟨h1, h2, h3, h4⟩ := hinv.produce i hpc
    simp only [hpc] at h
    split at h
    · rename_i hle
      split at h
      · injection h with h
        subst h
        have hw : wrap64 (i + 1) = i + 1 := wrap64_eq _ (by omega) (by omega)
        simp only [remainingWork, hexit, hpc, hw, Option.isSome_none, Bool.false_eq_true,
          if_false, List.length_append, List.length_singleton]
        omega
      · simp at h
    · injection h with h
      subst h
      simp only [remainingWork, hexit, hpc, Option.isSome_none, Bool.false_eq_true, if_false]
      omega
  | collect i =>
    simp only [hpc] at h
    split at h
    · split at h
      · simp at h
      · rename_i r rs hres
        injection h with h
        subst h
        simp only [remainingWork, hexit, hpc, hres, Option.isSome_none, Bool.false_eq_true,
          if_false, List.length_cons]
        omega
    · injection h with h
      subst h
      simp only [remainingWork, hexit, hpc, Option.isSome_none, Bool.false_eq_true, if_false]
      omega
  | done => simp [hpc] at h

theorem remainingWork_stepWorker {w : World} {args : Args} {k : Nat} {s s1 : Sched}
    (hexit : s.exit = none) (h : stepWorker w args k s = some s1) :
    remainingWork args s1 < remainingWork args s := by
  unfold stepWorker at h
  cases hk : s.workers.get? k with
  | none =>
    rw [hk] at h
    simp at h
  | some x =>
    have hW := fun y => weight_set s.workers k x y hk
    cases x with
    | idle =>
      simp only [hk] at h
      split at h
      · rename_i j js hjobs
        injection h with h
        subst h
        have hW := hW (.busy j)
        simp only [Worker.weight] at hW
        simp only [remainingWork, hexit, hjobs, Option.isSome_none, Bool.false_eq_true,
          if_false, List.length_cons]
        omega
      · split at h
        · injection h with h
          subst h
          have hW := hW .exited
          simp only [Worker.weight] at hW
          simp only [remainingWork, hexit, Option.isSome_none, Bool.false_eq_true, if_false]
          omega
        · simp at h
    | busy j =>
      simp only [hk] at h
      have hW := hW (.sending j)
      simp only [Worker.weight] at hW
      split at h
      · injection h with h
        subst h
        simp only [remainingWork, hexit, Option.isSome_none, Bool.false_eq_true, if_false]
        omega
      · injection h with h
        subst h
        simp only [remainingWork, hexit, Option.isSome_none, Option.isSome_some,
          Bool.false_eq_true, if_false, if_true]
        omega
    | sending j =>
      simp only [hk] at h
      split at h
      · injection h with h
        subst h
        have hW := hW .idle
        simp only [Worker.weight] at hW
        simp only [remainingWork, hexit, Option.isSome_none, Bool.false_eq_true, if_false,
          List.length_append, List.length_singleton]
        omega
      · simp at h
    | exited =>
      rw [hk] at h
      simp at h

/-- Every step uses up some of the remaining work. -/
theorem remainingWork_step {w : World} {args : Args} {a : Actor} {s s1 : Sched}
    (hfrom : minInt ≤ args.fromLine) (hto : args.toLine < maxInt) (hinv : Inv args s)
    (h : step w args a s = some s1) : remainingWork args s1 < remainingWork args s := by
  obtain ⟨hexit, _⟩ := step_not_ended h
  rcases step_eq h with ⟨_, hm⟩ | ⟨k, _, hw⟩
  · exact remainingWork_stepMain hfrom hto hinv hexit hm
  · exact remainingWork_stepWorker hexit hw

/-- An interleaving is no longer than the work that remained at its start. -/
theorem run_length_le {w : World} {args : Args} (hfrom : minInt ≤ args.fromLine)
    (hto : args.toLine < maxInt) (sched : List Actor) {s s1 : Sched} (hinv : Inv args s)
    (h : run w args sched s = some s1) :
    sched.length + remainingWork args s1 ≤ remainingWork args s := by
  induction sched generalizing s with
  | nil =>
    simp only [run, Option.some.injEq] at h
    subst h
    simp
  | cons a rest ih =>
    simp only [run] at h
    cases hs : step w args a s with
    | none => simp [hs] at h
    | some s2 =>
      rw [hs] at h
      have h1 := ih (inv_step hfrom hto hinv hs) h
      have h2 := remainingWork_step hfrom hto hinv hs
      simp only [List.length_cons]
      omega

/-- With at most 1000 rows in the range the send `jobs <- i` finds room. -/
theorem producer_has_room {args : Args} {s : Sched} (hinv : Inv args s)
    (hM : args.toLine - args.fromLine + 1 ≤ 1000) (i : Int) (hpc : s.pc = .produce i)
    (hle : i ≤ args.toLine) : s.jobs.length < chanCap := by
  have hcard := congrArg Multiset.card hinv.conservation
  simp only [Multiset.card_add, Multiset.coe_card, rowsFrom_length, hpc, enqueuedUpTo] at hcard
  unfold chanCap
  omega

/-! ## The scheduler: building interleavings -/

theorem run_append (w : World) (args : Args) (xs ys : List Actor) (s : Sched) :
    run w args (xs ++ ys) s = (run w args xs s).bind (run w args ys) := by
  induction xs generalizing s with
  | nil => rfl
  | cons a rest ih =>
    simp only [List.cons_append, run]
    cases step w args a s with
    | none => rfl
    | some s1 => exact ih s1

/-- As long as `jobs` has room, `main` alone puts the next `n` rows on it. -/
theorem run_main_produce (w : World) (args : Args) (hto : args.toLine < maxInt) (n : Nat)
    (s : Sched) (i : Int) (hpc : s.pc = .produce i) (hexit : s.exit = none)
    (hroom : s.jobs.length + n ≤ chanCap) (hi : i + n ≤ args.toLine + 1) (hmin : minInt ≤ i) :
    ∃ s1, run w args (List.replicate n .main) s = some s1 ∧ s1.pc = .produce (i + n) ∧
      s1.exit = none ∧ s1.jobs.length = s.jobs.length + n ∧ s1.results = s.results ∧
      s1.workers = s.workers ∧ s1.jobsClosed = s.jobsClosed := by
  induction n generalizing s i with
  | zero => exact ⟨s, rfl, by simpa using hpc, hexit, rfl, rfl, rfl, rfl⟩
  | succ n ih =>
    have hne : ¬ s.ended := by
      unfold Sched.ended
      simp [hpc, hexit]
    have hw : wrap64 (i + 1) = i + 1 := wrap64_eq _ (by omega) (by omega)
    have hstep : step w args .main s =
        some { s with jobs := s.jobs ++ [i], pc := .produce (i + 1) } := by
      rw [step_of_not_ended w args _ s hne]
      simp only [stepMain, hpc]
      rw [if_pos (by omega), if_pos (by omega), hw]
    obtain ⟨s1, hrun, h1, h2, h3, h4, h5, h6⟩ :=
      ih { s with jobs := s.jobs ++ [i], pc := .produce (i + 1) } (i + 1) rfl hexit
        (by simp only [List.length_append, List.length_singleton]; omega) (by omega) (by omega)
    refine ⟨s1, ?_, ?_, h2, ?_, h4, h5, h6⟩
    · simp only [List.replicate_succ, run, hstep]
      exact hrun
    · rw [h1]
      congr 1
      push_cast
      ring
    · rw [h3]
      simp only [List.length_append, List.length_singleton]
      omega

/-- One whole turn of worker `k`: a row moves from `jobs` to `results`. -/
theorem run_worker_turn (w : World) (args : Args)
    (hok : ∀ j, (singleUpload w args.dir j).result = .ok ()) (k : Nat) (s : Sched)
    (hk : s.workers.get? k = some .idle) (hne : ¬ s.ended) (hjobs : 1 ≤ s.jobs.length)
    (hroom : s.results.length + 1 ≤ chanCap) :
    ∃ s1, run w args [.worker k, .worker k, .worker k] s = some s1 ∧ s1.pc = s.pc ∧
      s1.exit = s.exit ∧ s1.jobs.length + 1 = s.jobs.length ∧
      s1.results.length = s.results.length + 1 ∧ s1.workers = s.workers ∧
      s1.jobsClosed = s.jobsClosed := by
  cases hj : s.jobs with
  | nil => simp [hj] at hjobs
  | cons j js =>
    have hlt : k < s.workers.length := by
      by_contra hge
      have : s.workers.get? k = none := List.get?_eq_none.mpr (by omega)
      rw [this] at hk
      simp at hk
    have hne' : s.pc ≠ .done ∧ s.exit = none := by
      unfold Sched.ended at hne
      constructor
      · exact fun h => hne (Or.inl h)
      · cases he : s.exit with
        | none => rfl
        | some m => exact absurd (Or.inr (by simp [he])) hne
    have hs1 : step w args (.worker k) s =
        some { s with jobs := js, workers := s.workers.set k (.busy j) } := by
      rw [step_of_not_ended w args _ s hne]
      simp only [stepWorker, hk, hj]
    have hs2 : step w args (.worker k) { s with jobs := js, workers := s.workers.set k (.busy j) } =
        some { s with jobs := js, workers := s.workers.set k (.sending j),
                      log := s.log ++ (singleUpload w args.dir j).events } := by
      rw [step_of_not_ended w args _ _ (by unfold Sched.ended; simp [hne'.1, hne'.2])]
      simp only [stepWorker]
      rw [List.get?_eq_getElem?, List.getElem?_set_self (by simpa using hlt)]
      simp only [hok j, List.set_set]
    have hs3 : step w args (.worker k)
        { s with jobs := js, workers := s.workers.set k (.sending j),
                 log := s.log ++ (singleUpload w args.dir j).events } =
        some { s with jobs := js, results := s.results ++ [j], workers := s.workers,
                      log := s.log ++ (singleUpload w args.dir j).events } := by
      rw [step_of_not_ended w args _ _ (by unfold Sched.ended; simp [hne'.1, hne'.2])]
      simp only [stepWorker]
      rw [List.get?_eq_getElem?, List.getElem?_set_self (by simpa using hlt)]
      simp only
      rw [if_pos (by omega)]
      simp only [List.set_set]
      have : s.workers.set k .idle = s.workers := by
        apply List.ext_getElem?
        intro m
        by_cases hm : k = m
        · subst hm
          rw [List.getElem?_set_self hlt, ← List.get?_eq_getElem?, hk]
        · rw [List.getElem?_set_ne hm]
      rw [this]
    refine ⟨{ s with jobs := js, results := s.results ++ [j], workers := s.workers,
                     log := s.log ++ (singleUpload w args.dir j).events },
      ?_, ?_, ?_, ?_, ?_, ?_, ?_⟩
    · simp only [run, hs1, hs2, hs3]
    · rfl
    · rfl
    · simp
    · simp
    · rfl
    · rfl

theorem run_workerTurns (w : World) (args : Args)
    (hok : ∀ j, (singleUpload w args.dir j).result = .ok ()) (k : Nat) (n : Nat) (s : Sched)
    (hk : s.workers.get? k = some .idle) (hne : ¬ s.ended) (hjobs : n ≤ s.jobs.length)
    (hroom : s.results.length + n ≤ chanCap) :
    ∃ s1, run w args (workerTurns k n) s = some s1 ∧ s1.pc = s.pc ∧
      s1.exit = s.exit ∧ s1.jobs.length + n = s.jobs.length ∧
      s1.results.length = s.results.length + n ∧ s1.workers = s.workers ∧
      s1.jobsClosed = s.jobsClosed := by
  induction n generalizing s with
  | zero => exact ⟨s, rfl, rfl, rfl, rfl, rfl, rfl, rfl⟩
  | succ n ih =>
    obtain ⟨s1, hrun1, a1, a2, a3, a4, a5, a6⟩ :=
      run_worker_turn w args hok k s hk hne (by omega) (by omega)
    have hne1 : ¬ s1.ended := by
      unfold Sched.ended at hne ⊢
      rw [a1, a2]
      exact hne
    obtain ⟨s2, hrun2, b1, b2, b3, b4, b5, b6⟩ :=
      ih s1 (by rw [a5]; exact hk) hne1 (by omega) (by omega)
    refine ⟨s2, ?_, by rw [b1, a1], by rw [b2, a2], by omega, by omega, by rw [b5, a5],
      by rw [b6, a6]⟩
    have : workerTurns k (n + 1) = [.worker k, .worker k, .worker k] ++ workerTurns k n := rfl
    rw [this, run_append, hrun1]
    exact hrun2

/-- Worker `k` receives a row and runs `singleUpload` on it: it stands at its send. -/
theorem run_worker_take (w : World) (args : Args)
    (hok : ∀ j, (singleUpload w args.dir j).result = .ok ()) (k : Nat) (s : Sched)
    (hk : s.workers.get? k = some .idle) (hne : ¬ s.ended) (hjobs : 1 ≤ s.jobs.length) :
    ∃ s1 j, run w args [.worker k, .worker k] s = some s1 ∧ s1.pc = s.pc ∧
      s1.exit = s.exit ∧ s1.jobs.length + 1 = s.jobs.length ∧
      s1.results = s.results ∧ s1.workers = s.workers.set k (.sending j) ∧
      s1.jobsClosed = s.jobsClosed := by
  cases hj : s.jobs with
  | nil => simp [hj] at hjobs
  | cons j js =>
    have hlt : k < s.workers.length := by
      by_contra hge
      have : s.workers.get? k = none := List.get?_eq_none.mpr (by omega)
      rw [this] at hk
      simp at hk
    have hne' : s.pc ≠ .done ∧ s.exit = none := by
      unfold Sched.ended at hne
      constructor
      · exact fun h => hne (Or.inl h)
      · cases he : s.exit with
        | none => rfl
        | some m => exact absurd (Or.inr (by simp [he])) hne
    have hs1 : step w args (.worker k) s =
        some { s with jobs := js, workers := s.workers.set k (.busy j) } := by
      rw [step_of_not_ended w args _ s hne]
      simp only [stepWorker, hk, hj]
    have hs2 : step w args (.worker k) { s with jobs := js, workers := s.workers.set k (.busy j) } =
        some { s with jobs := js, workers := s.workers.set k (.sending j),
                      log := s.log ++ (singleUpload w args.dir j).events } := by
      rw [step_of_not_ended w args _ _ (by unfold Sched.ended; simp [hne'.1, hne'.2])]
      simp only [stepWorker]
      rw [List.get?_eq_getElem?, List.getElem?_set_self (by simpa using hlt)]
      simp only [hok j, List.set_set]
    refine ⟨{ s with jobs := js, workers := s.workers.set k (.sending j),
                     log := s.log ++ (singleUpload w args.dir j).events }, j,
      ?_, ?_, ?_, ?_, ?_, ?_, ?_⟩
    · simp only [run, hs1, hs2]
    · rfl
    · rfl
    · simp
    · rfl
    · rfl
    · rfl

theorem quietWorld_singleUpload (dir : String) (j : Int) :
    (singleUpload quietWorld dir j).result = .ok () := by
  have hrow : ∃ vd, (getRow quietWorld dir j).result = .ok vd := by
    simp [getRow, quietWorld, NewVideoData, assertString, Eff.bind, emit, Eff.pure]
  obtain ⟨vd, hrow⟩ := hrow
  have hgate : (isFileSizeOk quietWorld vd.Filename).1 = false := by
    simp [isFileSizeOk, quietWorld]
  rw [(singleUpload_gate_fail quietWorld dir j vd hrow hgate).2]
  simp [setVideoUrl, quietWorld, Eff.bind, emit, Eff.pure]

/-- A state in which `main` stands at a send on a full `jobs` and every worker
at a send on a full `results`: nobody can step. -/
theorem blocked_state (w : World) (args : Args) (s : Sched) (i a b c : Int)
    (hpc : s.pc = .produce i) (hle : i ≤ args.toLine) (hjobs : s.jobs.length = chanCap)
    (hres : s.results.length = chanCap)
    (hws : s.workers = [.sending a, .sending b, .sending c]) :
    ∀ actor, step w args actor s = none := by
  intro actor
  unfold step
  split
  · rfl
  · cases actor with
    | main => simp [stepMain, hpc, hle, hjobs]
    | worker k =>
      simp only [stepWorker, hws]
      match k with
      | 0 => simp [hres]
      | 1 => simp [hres]
      | 2 => simp [hres]
      | n + 3 => simp

/-! ## Claims about the scheduler -/

/-- C1: in every completed run of the scheduler (`main` has returned, which no
run with a fatal exit does) the calls to `setVideoUrl` are exactly
`to - from + 1` in number, one for each row index of the range and none for an
index outside of it, whatever the interleaving. -/
theorem scheduler_writes_each_row_once (w : World) (args : Args)
    (hfrom : minInt ≤ args.fromLine) (hto : args.toLine ≤ maxInt)
    (hle : args.fromLine ≤ args.toLine) (sched : List Actor) (s : Sched)
    (hrun : run w args sched (initSched args) = some s) (hdone : s.pc = .done) :
    s.exit = none ∧
    (writeLines s.log).length = (args.toLine - args.fromLine + 1).toNat ∧
    (∀ i, (writeLines s.log).count i = if args.fromLine ≤ i ∧ i ≤ args.toLine then 1 else 0) ∧
    (writeLines s.log).Perm (rowsFrom args.fromLine (args.toLine + 1)) := by
  by_cases hmax : args.toLine = maxInt
  · obtain ⟨i, hi, _⟩ :=
      produce_forever hmax sched ⟨args.fromLine, rfl, by omega⟩ hrun
    rw [hdone] at hi
    simp at hi
  · have hlt : args.toLine < maxInt := by omega
    obtain ⟨hexit, _, hperm⟩ := inv_at_done (inv_run hfrom hlt sched (inv_init args) hrun) hdone
    refine ⟨hexit, ?_, ?_, hperm⟩
    · rw [hperm.length_eq, rowsFrom_length]
      congr 1
      omega
    · intro i
      rw [hperm.count_eq, rowsFrom_count]
      have : (i < args.toLine + 1) ↔ i ≤ args.toLine := by omega
      simp only [this]

/-- C1 on the range from 1 to 2 under one interleaving of `main` and the three
workers that runs to the return of `main`. -/
theorem scheduler_writes_each_row_once_witness :
    ∃ s, run quietWorld { dir := "videos", fromLine := 1, toLine := 2 }
        [.main, .main, .worker 0, .worker 0, .worker 1, .worker 1, .main, .worker 0, .worker 1,
         .worker 2, .worker 1, .worker 0, .main, .main, .main]
        (initSched { dir := "videos", fromLine := 1, toLine := 2 }) = some s ∧
      s.pc = .done ∧ (writeLines s.log).length = 2 ∧
      (writeLines s.log).Perm (rowsFrom 1 3) := by
  cases h : run quietWorld { dir := "videos", fromLine := 1, toLine := 2 }
        [.main, .main, .worker 0, .worker 0, .worker 1, .worker 1, .main, .worker 0, .worker 1,
         .worker 2, .worker 1, .worker 0, .main, .main, .main]
        (initSched { dir := "videos", fromLine := 1, toLine := 2 }) with
  | none => exact absurd h (by decide)
  | some s =>
    have hpc : s.pc = .done := by
      have h2 : (run quietWorld { dir := "videos", fromLine := 1, toLine := 2 }
        [.main, .main, .worker 0, .worker 0, .worker 1, .worker 1, .main, .worker 0, .worker 1,
         .worker 2, .worker 1, .worker 0, .main, .main, .main]
        (initSched { dir := "videos", fromLine := 1, toLine := 2 })).map Sched.pc = some .done := by
        decide
      rw [h] at h2
      simpa using h2
    have key := scheduler_writes_each_row_once quietWorld
      { dir := "videos", fromLine := 1, toLine := 2 } (by decide) (by decide) (by decide) _ s h hpc
    exact ⟨s, rfl, hpc, key.2.1, key.2.2.2⟩

/-- C2 fails: on the rows 1 to 2004 the interleaving `deadlockSchedule` ends in a
state where `main` is blocked at `jobs <- 2004` and all three workers are
blocked at their send, neither channel having room: a deadlock.  Already on
the rows 1 to 1001 `main`, moving alone, is blocked on its enqueue of row 1001:
the queue holds 1000 values, not the whole range.  And on the four rows that
end at the largest `int` the counter of the first loop wraps around, so that
`main` never returns. -/
theorem scheduler_deadlock_at_2004 :
    (∃ s, run quietWorld { dir := "videos", fromLine := 1, toLine := 2004 } deadlockSchedule
        (initSched { dir := "videos", fromLine := 1, toLine := 2004 }) = some s ∧
      ¬ s.ended ∧ s.pc = .produce 2004 ∧
      ∀ a, step quietWorld { dir := "videos", fromLine := 1, toLine := 2004 } a s = none) ∧
    (∃ s, run quietWorld { dir := "videos", fromLine := 1, toLine := 1001 }
        (List.replicate 1000 .main)
        (initSched { dir := "videos", fromLine := 1, toLine := 1001 }) = some s ∧
      ¬ s.ended ∧ s.pc = .produce 1001 ∧
      step quietWorld { dir := "videos", fromLine := 1, toLine := 1001 } .main s = none) ∧
    (∀ sched s,
      run quietWorld
        { dir := "videos", fromLine := 9223372036854775804, toLine := 9223372036854775807 } sched
        (initSched
          { dir := "videos", fromLine := 9223372036854775804, toLine := 9223372036854775807 }) =
        some s → s.pc ≠ .done) := by
  have hok : ∀ (dir : String) (j : Int), (singleUpload quietWorld dir j).result = .ok () :=
    quietWorld_singleUpload
  refine ⟨?_, ?_, ?_⟩
  · have hto : (2004 : Int) < maxInt := by decide
    obtain ⟨s1, r1, a1, a2, a3, a4, a5, a6⟩ :=
      run_main_produce quietWorld { dir := "videos", fromLine := 1, toLine := 2004 } hto 1000
        (initSched { dir := "videos", fromLine := 1, toLine := 2004 }) 1 rfl rfl
        (by simp [initSched, chanCap]) (by norm_num) (by decide)
    have hj1 : s1.jobs.length = 1000 := by rw [a3]; rfl
    have hne1 : ¬ s1.ended := by unfold Sched.ended; simp [a1, a2]
    obtain ⟨s2, r2, b1, b2, b3, b4, b5, b6⟩ :=
      run_workerTurns quietWorld { dir := "videos", fromLine := 1, toLine := 2004 }
        (hok _) 0 1000 s1 (by rw [a5]; rfl) hne1 (by omega)
        (by rw [a4]; simp [initSched, chanCap])
    have hj2 : s2.jobs.length = 0 := by omega
    have hr2 : s2.results.length = 1000 := by rw [b4, a4]; rfl
    have hp2 : s2.pc = .produce 1001 := by rw [b1, a1]; norm_num
    obtain ⟨s3, r3, c1, c2, c3, c4, c5, c6⟩ :=
      run_main_produce quietWorld { dir := "videos", fromLine := 1, toLine := 2004 } hto 1000
        s2 1001 hp2 (by rw [b2, a2]) (by rw [hj2]; simp [chanCap]) (by norm_num) (by decide)
    have hp3 : s3.pc = .produce 2001 := by rw [c1]; norm_num
    have hne3 : ¬ s3.ended := by unfold Sched.ended; simp [hp3, c2]
    have hw3 : s3.workers = [.idle, .idle, .idle] := by rw [c5, b5, a5]; rfl
    obtain ⟨s4, j0, r4, d1, d2, d3, d4, d5, d6⟩ :=
      run_worker_take quietWorld { dir := "videos", fromLine := 1, toLine := 2004 }
        (hok _) 0 s3 (by rw [hw3]; rfl) hne3 (by omega)
    have hw4 : s4.workers = [.sending j0, .idle, .idle] := by rw [d5, hw3]; rfl
    have hne4 : ¬ s4.ended := by unfold Sched.ended; rw [d1, d2]; simp [hp3, c2]
    obtain ⟨s5, j1, r5, e1, e2, e3, e4, e5, e6⟩ :=
      run_worker_take quietWorld { dir := "videos", fromLine := 1, toLine := 2004 }
        (hok _) 1 s4 (by rw [hw4]; rfl) hne4 (by omega)
    have hw5 : s5.workers = [.sending j0, .sending j1, .idle] := by rw [e5, hw4]; rfl
    have hne5 : ¬ s5.ended := by unfold Sched.ended; rw [e1, e2, d1, d2]; simp [hp3, c2]
    obtain ⟨s6, j2, r6, f1, f2, f3, f4, f5, f6⟩ :=
      run_worker_take quietWorld { dir := "videos", fromLine := 1, toLine := 2004 }
        (hok _) 2 s5 (by rw [hw5]; rfl) hne5 (by omega)
    have hw6 : s6.workers = [.sending j0, .sending j1, .sending j2] := by rw [f5, hw5]; rfl
    have hj6 : s6.jobs.length = 997 := by omega
    obtain ⟨s7, r7, g1, g2, g3, g4, g5, g6⟩ :=
      run_main_produce quietWorld { dir := "videos", fromLine := 1, toLine := 2004 } hto 3
        s6 2001 (by rw [f1, e1, d1, hp3]) (by rw [f2, e2, d2, c2])
        (by rw [hj6]; simp [chanCap]) (by norm_num) (by decide)
    have hp7 : s7.pc = .produce 2004 := by rw [g1]; norm_num
    refine ⟨s7, ?_, ?_, hp7, ?_⟩
    · have hD : ([.worker 0, .worker 0, .worker 1, .worker 1, .worker 2, .worker 2] : List Actor) =
          [.worker 0, .worker 0] ++ ([.worker 1, .worker 1] ++ [.worker 2, .worker 2]) := rfl
      unfold deadlockSchedule
      rw [run_append, r1, Option.some_bind, run_append, r2, Option.some_bind, run_append, r3,
        Option.some_bind, run_append, hD, run_append, r4, Option.some_bind, run_append, r5,
        Option.some_bind, r6, Option.some_bind, r7]
    · unfold Sched.ended
      simp [hp7, g2]
    · exact blocked_state quietWorld _ s7 2004 j0 j1 j2 hp7 (by decide)
        (by rw [g3, hj6]; rfl) (by rw [g4, f4, e4, d4, c4, hr2]; rfl) (by rw [g5, hw6])
  · have hto : (1001 : Int) < maxInt := by decide
    obtain ⟨s1, r1, a1, a2, a3, a4, a5, a6⟩ :=
      run_main_produce quietWorld { dir := "videos", fromLine := 1, toLine := 1001 } hto 1000
        (initSched { dir := "videos", fromLine := 1, toLine := 1001 }) 1 rfl rfl
        (by simp [initSched, chanCap]) (by norm_num) (by decide)
    have hp1 : s1.pc = .produce 1001 := by rw [a1]; norm_num
    have hj1 : s1.jobs.length = 1000 := by rw [a3]; rfl
    have hne1 : ¬ s1.ended := by unfold Sched.ended; simp [a1, a2]
    refine ⟨s1, r1, hne1, hp1, ?_⟩
    rw [step_of_not_ended _ _ _ _ hne1]
    simp [stepMain, hp1, hj1, chanCap]
  · intro sched s hrun hd
    obtain ⟨i, hi, _⟩ := @produce_forever quietWorld
      { dir := "videos", fromLine := 9223372036854775804, toLine := 9223372036854775807 }
      (by decide) sched _ s ⟨9223372036854775804, rfl, by decide⟩ hrun
    rw [hd] at hi
    simp at hi

/-- C2 as amended: for a range of at most 2003 rows whose `to` is below the
largest `int`, no reachable state is a deadlock (in every state that has not
ended some goroutine can step), every interleaving has at most `6 * M + 5`
steps, and at the return of `main` all `M` rows have been processed and `main`
has read `M` completion signals; for at most 1000 rows `main` is never blocked
on its enqueue. -/
theorem scheduler_progress (w : World) (args : Args) (hfrom : minInt ≤ args.fromLine)
    (hto : args.toLine < maxInt) (hM : args.toLine - args.fromLine + 1 ≤ 2003)
    (sched : List Actor) (s : Sched) (hrun : run w args sched (initSched args) = some s) :
    (¬ s.ended → ∃ a, (step w args a s).isSome = true) ∧
    sched.length ≤ 6 * (args.toLine - args.fromLine + 1).toNat + 5 ∧
    (s.pc = .done →
      s.exit = none ∧ s.recvd.length = (args.toLine - args.fromLine + 1).toNat ∧
      (writeLines s.log).Perm (rowsFrom args.fromLine (args.toLine + 1))) ∧
    (args.toLine - args.fromLine + 1 ≤ 1000 → ¬ s.ended → ∀ i, s.pc = .produce i →
      (step w args .main s).isSome = true) := by
  have hinv : Inv args s := inv_run hfrom hto sched (inv_init args) hrun
  refine ⟨progress_of_inv w hinv hM, ?_, ?_, ?_⟩
  · have h := run_length_le hfrom hto sched (inv_init args) hrun
    have h0 : remainingWork args (initSched args) =
        6 * (args.toLine - args.fromLine + 1).toNat + 5 := by
      simp only [remainingWork, initSched, numWorkers, Option.isSome_none, Bool.false_eq_true,
        if_false, List.length_nil, List.replicate, List.map_cons, List.map_nil, List.sum_cons,
        List.sum_nil, Worker.weight]
      have : (args.toLine + 1 - args.fromLine).toNat = (args.toLine - args.fromLine + 1).toNat := by
        congr 1
        omega
      omega
    omega
  · intro hd
    obtain ⟨h1, h2, h3⟩ := inv_at_done hinv hd
    refine ⟨h1, ?_, h3⟩
    rw [h2]
    congr 1
    omega
  · intro hM1 hne i hpc
    rw [step_of_not_ended w args _ s hne]
    simp only [stepMain, hpc]
    by_cases hle : i ≤ args.toLine
    · rw [if_pos hle, if_pos (producer_has_room hinv hM1 i hpc hle)]
      rfl
    · rw [if_neg hle]
      rfl

/-- C2 as amended, on the rows 5 to 8 after five steps of `main` and two
workers: some goroutine can step, and the five steps are within the bound. -/
theorem scheduler_progress_witness :
    ∃ s, run quietWorld { dir := "videos", fromLine := 5, toLine := 8 }
        [.main, .worker 0, .main, .worker 1, .worker 0]
        (initSched { dir := "videos", fromLine := 5, toLine := 8 }) = some s ∧
      (∃ a, (step quietWorld { dir := "videos", fromLine := 5, toLine := 8 } a s).isSome = true) ∧
      (5 : Nat) ≤ 6 * 4 + 5 := by
  cases h : run quietWorld { dir := "videos", fromLine := 5, toLine := 8 }
        [.main, .worker 0, .main, .worker 1, .worker 0]
        (initSched { dir := "videos", fromLine := 5, toLine := 8 }) with
  | none => exact absurd h (by decide)
  | some s =>
    have hne : ¬ s.ended := by
      have h2 : (run quietWorld { dir := "videos", fromLine := 5, toLine := 8 }
        [.main, .worker 0, .main, .worker 1, .worker 0]
        (initSched { dir := "videos", fromLine := 5, toLine := 8 })).map
          (fun t => decide t.ended) = some false := by
        decide
      rw [h] at h2
      simpa using h2
    have key := scheduler_progress quietWorld { dir := "videos", fromLine := 5, toLine := 8 }
      (by decide) (by decide) (by decide) _ s h
    exact ⟨s, rfl, key.1 hne, key.2.1⟩

end VideoUpload
